import Mathlib

/-!
# Verification of the AIWEBSCRAPER analysis and cleaning pipelines

Shallow embedding of the two core components of the repository:

* `parse.py` — `ContentAnalyzer.analyze_content` / `_process_full_content` /
  `_build_prompt`: input validation, content truncation, prompt construction,
  and the bounded retry loop around the external LLM endpoint.
* `scrape.py` — `extract_body_content` and `clean_body_content`: HTML body
  extraction and text cleaning built on BeautifulSoup with the stdlib
  `html.parser` tree builder.

The external LLM endpoint is modelled as a function from the attempt index to
the outcome of that attempt (`ApiResult`).  The external markup parser
(BeautifulSoup over `html.parser`) is modelled by an executable parser over
`List Char` that mirrors the observable behaviour of `html.parser` used by the
repository: tag/end-tag/comment recognition, a lone `<` that does not open a
completed construct being emitted as its own data event, character-reference
decoding in data, void elements, and implicit closing of open elements.
-/

namespace AWS

/-! ## Analyzer: outcome model of one endpoint request

`parse.py` performs `self.model.generate_content(prompt, ...)` inside
`try/except`.  One attempt is classified by which branch of the
`if/elif/else` + `except` ladder it reaches. -/

/-- Outcome of a single request to the Gemini endpoint, as discriminated by
`_process_full_content` (parse.py lines 97–135).  `ok t` is a response whose
`.text` is `t` and which carries no block reason; `blocked r` is a response
with empty/absent text whose `prompt_feedback.block_reason` is `r`; the
remaining constructors are the exception classes caught by the `except`
clauses, each carrying the exception message. -/
inductive ApiResult where
  | ok (text : String)
  | blocked (reason : String)
  | resourceExhausted (msg : String)
  | deadlineExceeded (msg : String)
  | serviceUnavailable (msg : String)
  | apiError (msg : String)
  | otherError (msg : String)
deriving DecidableEq, Repr

/-- Python `str.strip()` whitespace, ASCII members: space, tab, newline,
carriage return, vertical tab, form feed. -/
def isSpaceC (c : Char) : Bool :=
  c == ' ' || c == '\t' || c == '\n' || c == '\r' || c == '\x0b' || c == '\x0c'

/-- Python `str.strip()`: drop leading and trailing whitespace. -/
def stripL (l : List Char) : List Char :=
  ((l.dropWhile isSpaceC).reverse.dropWhile isSpaceC).reverse

/-- Python `str.strip()` on strings. -/
def pyStrip (s : String) : String :=
  String.mk (stripL s.data)

/-- The value returned from inside one loop iteration of
`_process_full_content`, or `none` when the iteration falls through to the
retry logic (parse.py lines 109–135):

* a response with non-empty text returns `text.strip()`;
* a response with a block reason returns the safety-block error string;
* `ResourceExhausted` and any other `GoogleAPIError` return tagged error
  strings;
* an empty/invalid response, `DeadlineExceeded`, `ServiceUnavailable`, and any
  unexpected exception fall through to the retry logic. -/
def attemptReturn (r : ApiResult) : Option String :=
  match r with
  | .ok t =>
      if t ≠ "" then some (pyStrip t) else none
  | .blocked reason =>
      some ("⚠️ Error: Content generation blocked by safety settings or API policy. Reason: "
        ++ reason)
  | .resourceExhausted m =>
      some ("⚠️ API Error: Resource limits exceeded. Please check your API quota. (" ++ m ++ ")")
  | .deadlineExceeded _ => none
  | .serviceUnavailable _ => none
  | .apiError m => some ("⚠️ API Error: " ++ m)
  | .otherError _ => none

/-- Observable outcome of the retry loop: the value `_process_full_content`
returns (`none` models Python `None`), the number of requests issued to the
endpoint, and the list of back-off sleep durations (seconds), in order. -/
structure LoopOut where
  result : Option String
  requests : Nat
  sleeps : List Nat
deriving DecidableEq, Repr

/-- The `for attempt in range(self.max_retries)` loop of
`_process_full_content` (parse.py lines 94–146), iterating over the list of
remaining attempt indices.  `req i` is the outcome of the request made on
iteration `i`.  If the iteration's body returns a value, the loop exits with
it; otherwise, when `attempt < max_retries - 1` the loop sleeps
`retry_delay * 2 ** attempt` seconds and continues, and on the last allowed
attempt it returns `None`.  An exhausted index list models the loop falling
off the end (parse.py line 146, reached only when `max_retries = 0`). -/
def processList (req : Nat → ApiResult) (maxRetries retryDelay : Nat) : List Nat → LoopOut
  | [] => ⟨none, 0, []⟩
  | attempt :: rest =>
      match attemptReturn (req attempt) with
      | some v => ⟨some v, 1, []⟩
      | none =>
          if attempt < maxRetries - 1 then
            let r := processList req maxRetries retryDelay rest
            ⟨r.result, r.requests + 1, retryDelay * 2 ^ attempt :: r.sleeps⟩
          else ⟨none, 1, []⟩

/-- The full retry loop of `_process_full_content`: the iteration indices are
`range(max_retries)`. -/
def processLoop (req : Nat → ApiResult) (maxRetries retryDelay : Nat) : LoopOut :=
  processList req maxRetries retryDelay (List.range maxRetries)

/-- `MAX_CONTENT_LENGTH = 700 * 1000` (parse.py line 17). -/
def MAX_CONTENT_LENGTH : Nat := 700 * 1000

/-- The truncation step of `_process_full_content` (parse.py lines 87–90):
`content[:MAX_CONTENT_LENGTH]` when `len(content) > MAX_CONTENT_LENGTH`,
`content` unchanged otherwise.  Python slices strings by code points, so the
slice is the first `MAX_CONTENT_LENGTH` characters. -/
def truncatedContent (content : String) : String :=
  if content.length > MAX_CONTENT_LENGTH then String.mk (content.data.take MAX_CONTENT_LENGTH)
  else content

/-- `history[-4:]`: the last four entries of the history (all of it when it has
fewer than four). -/
def lastWindow (history : List String) : List String :=
  history.drop (history.length - 4)

/-- The formatted context lines of `_build_prompt` (parse.py line 153):
`f"{'User' if i % 2 == 0 else 'Assistant'}: {msg}"` for `(i, msg)` in
`enumerate(history[-4:])`. -/
def contextLines (history : List String) : List String :=
  (lastWindow history).enum.map
    (fun p => (if p.1 % 2 = 0 then "User" else "Assistant") ++ ": " ++ p.2)

/-- `context_str` of `_build_prompt` (parse.py lines 150–154): empty for an
empty history, otherwise the heading plus the joined context lines. -/
def contextStr (history : List String) : String :=
  if history.isEmpty then ""
  else "\nPrevious Conversation Context:\n" ++ "\n".intercalate (contextLines history)

/-- The fixed text of the prompt template before the embedded content
(parse.py lines 157–162, up to and including the start delimiter line). -/
def promptHead : String :=
  "**Role:** You are an AI assistant specialized in analyzing provided web page text content to answer user questions accurately.\n\n**Task:** Analyze the following **Web Page Text Content** and answer the **User Query** based *solely* on the information present in the text.\n\n**Web Page Text Content:**\n--- START ---\n"

/-- The fixed instruction block of the prompt template after the query
(parse.py lines 169–178). -/
def promptInstructions : String :=
  "\n\n**Instructions for Response:**\n1.  **Base your answer strictly on the provided \"Web Page Text Content\".** Do not use external knowledge or make assumptions.\n2.  **Address the specific \"User Query\" directly.**\n3.  **If the information needed to answer the query is present, extract and synthesize it clearly.** Quote relevant snippets briefly if helpful using markdown blockquotes (`> snippet`).\n4.  **If the information is *not* found in the text, explicitly state that.** For example: \"The provided text does not contain information about X.\"\n5.  **Use Markdown formatting** for readability (e.g., headings `##`, lists `* item`, bold `**text**`).\n6.  **Be objective and factual.**\n7.  **Provide a comprehensive answer covering all parts of the query if possible within the text.**\n8.  **Do NOT return an empty response.** If you cannot answer, explain why based on instruction #4.\n"

/-- `_build_prompt` (parse.py lines 148–178): the f-string template with
`content`, `context_str` and `query` interpolated. -/
def buildPrompt (content query : String) (history : List String) : String :=
  promptHead ++ content ++ "\n--- END ---\n" ++ contextStr history
    ++ "\n\n**User Query:** " ++ query ++ promptInstructions

/-- The prompt `_process_full_content` sends: `_build_prompt` applied to the
(possibly truncated) content (parse.py lines 87–92). -/
def promptOf (content query : String) (history : List String) : String :=
  buildPrompt (truncatedContent content) query history

/-- Observable outcome of `analyze_content`: the returned string, the number
of endpoint requests issued, and the back-off sleeps performed. -/
structure AnalyzeOut where
  result : String
  requests : Nat
  sleeps : List Nat
deriving DecidableEq, Repr

/-- `analyze_content` (parse.py lines 56–83).  Empty content and empty query
short-circuit with tagged warnings before any request; otherwise the retry
loop runs and a falsy (`None` or empty) loop result is converted into the
retries-exhausted warning.  The chat history parameter defaults to `None` in
Python; `[]` models both `None` and the empty list (both falsy).  No
exception escapes: every path of the model yields a string.  The endpoint is
modelled as `beh : String → Nat → ApiResult`, giving the outcome of the
request that sends a given prompt on a given attempt index; the loop always
sends the prompt built from the truncated content, the query and the
history. -/
def analyze_content (beh : String → Nat → ApiResult) (maxRetries retryDelay : Nat)
    (full_content query : String) (chat_history : List String) : AnalyzeOut :=
  if full_content = "" then
    ⟨"⚠️ Error: No website content loaded or content is empty.", 0, []⟩
  else if query = "" then
    ⟨"⚠️ Error: Query cannot be empty.", 0, []⟩
  else
    let out := processLoop (beh (promptOf full_content query chat_history)) maxRetries retryDelay
    match out.result with
    | some t =>
        if t ≠ "" then ⟨t, out.requests, out.sleeps⟩
        else ⟨"⚠️ Analysis failed after multiple retries or returned no relevant content.",
          out.requests, out.sleeps⟩
    | none =>
        ⟨"⚠️ Analysis failed after multiple retries or returned no relevant content.",
          out.requests, out.sleeps⟩

/-- An attempt outcome the retry loop treats as transient (falls through to
the back-off/retry logic): an empty response with no explicit error, a
deadline/timeout, or service unavailability. -/
def isTransient (r : ApiResult) : Bool :=
  match r with
  | .ok t => t == ""
  | .deadlineExceeded _ => true
  | .serviceUnavailable _ => true
  | _ => false

/-- A returned string carries the recognizable warning marker: the marker
`"⚠️"` is a prefix of the string. -/
def warnTagged (s : String) : Prop :=
  "⚠️".data <+: s.data

instance (s : String) : Decidable (warnTagged s) := by
  unfold warnTagged; infer_instance

/-! ## Text Cleaner: model of BeautifulSoup over the stdlib `html.parser`

`scrape.py` builds `BeautifulSoup(html, 'html.parser')` and consumes only
the tag structure, the text, and `str(...)` serialization.  The model below
reproduces the observable behaviour of that stack on the markup constructs
the repository feeds it.  Modelling boundaries (each noted at the relevant
definition): Python whitespace/line-break sets are modelled by their ASCII
members, character references by the core named subset, attribute text is
carried verbatim rather than re-normalized, and quoted `>` inside attribute
values is not recognized. -/

/-- Line-break characters of Python `str.splitlines()`, modelled members:
`\n`, `\r` (with `\r\n` as a single break), `\v`, `\f`.  (Python also breaks
on `\x1c`–`\x1e`, `\x85`, `U+2028`, `U+2029`; not modelled.) -/
def isBreakC (c : Char) : Bool :=
  c == '\n' || c == '\r' || c == '\x0b' || c == '\x0c'

/-- Python `str.splitlines()` over the modelled break characters: no line for
the empty string, a final unterminated line is kept, a trailing break does
not produce an extra empty line. -/
def splitLinesL : List Char → List (List Char)
  | [] => []
  | '\r' :: '\n' :: t => [] :: splitLinesL t
  | '\r' :: t => [] :: splitLinesL t
  | c :: t =>
      if isBreakC c then [] :: splitLinesL t
      else
        match splitLinesL t with
        | [] => [[c]]
        | m :: ms => (c :: m) :: ms

/-- `'\n'.join(...)` over character lists. -/
def joinNL : List (List Char) → List Char
  | [] => []
  | [m] => m
  | m :: ms => m ++ '\n' :: joinNL ms

/-- Does `pat` occur at the head of `l`? -/
def leadsWith : List Char → List Char → Bool
  | [], _ => true
  | _ :: _, [] => false
  | p :: ps, c :: cs => p == c && leadsWith ps cs

/-- The modelled character-reference spellings:
`&lt; &gt; &amp; &quot; &apos;`. -/
def refPats : List (List Char) :=
  [['&', 'l', 't', ';'], ['&', 'g', 't', ';'], ['&', 'a', 'm', 'p', ';'],
    ['&', 'q', 'u', 'o', 't', ';'], ['&', 'a', 'p', 'o', 's', ';']]

/-- Does one of the modelled character references start at the head of the
list? -/
def refAtHead (l : List Char) : Bool :=
  refPats.any (fun p => leadsWith p l)

/-- No modelled character reference occurs anywhere in the list. -/
def noRefs : List Char → Bool
  | [] => true
  | c :: t => !refAtHead (c :: t) && noRefs t

/-- Character-reference decoding performed by `html.parser` with
`convert_charrefs=True` (the BeautifulSoup default) on data between tags;
decoded output is not rescanned, matching Python's single pass.  Modelled
subset: the five core named references; numeric and other named references
are left as written. -/
def decodeRefs : List Char → List Char
  | [] => []
  | '&' :: 'l' :: 't' :: ';' :: rest => '<' :: decodeRefs rest
  | '&' :: 'g' :: 't' :: ';' :: rest => '>' :: decodeRefs rest
  | '&' :: 'a' :: 'm' :: 'p' :: ';' :: rest => '&' :: decodeRefs rest
  | '&' :: 'q' :: 'u' :: 'o' :: 't' :: ';' :: rest => '"' :: decodeRefs rest
  | '&' :: 'a' :: 'p' :: 'o' :: 's' :: ';' :: rest => '\x27' :: decodeRefs rest
  | c :: rest => c :: decodeRefs rest

/-- A parse event, mirroring `html.parser`'s `handle_data`,
`handle_starttag` (with the self-closing flag of `handle_startendtag`) and
`handle_endtag` as seen by BeautifulSoup's tree builder.  Comments and
declarations produce no event: BeautifulSoup's `get_text` excludes them and
the repository consumes only text and tag structure. -/
inductive Tok where
  | text (s : List Char)
  | openT (name : List Char) (attrs : List Char) (selfClosing : Bool)
  | closeT (name : List Char)
deriving DecidableEq, Repr

/-- Split at the first `'>'`: `some (before, after)`, or `none` when no
`'>'` exists.  (`html.parser` additionally tolerates `>` inside quoted
attribute values; not modelled.) -/
def breakAtGt : List Char → Option (List Char × List Char)
  | [] => none
  | c :: t =>
      if c == '>' then some ([], t)
      else (breakAtGt t).map (fun p => (c :: p.1, p.2))

/-- The remainder after the first `"-->"`, when present. -/
def afterCommentEnd : List Char → Option (List Char)
  | '-' :: '-' :: '>' :: t => some t
  | _ :: t => afterCommentEnd t
  | [] => none

/-- End-tag name characters of `html.parser` (`[-.a-zA-Z0-9:_]`). -/
def isNameC (c : Char) : Bool :=
  c.isAlphanum || c == '-' || c == '.' || c == ':' || c == '_'

/-- A start-tag name runs until whitespace, `'/'` or the consumed `'>'`. -/
def startNameOf (inner : List Char) : List Char :=
  (inner.takeWhile (fun c => !(isSpaceC c || c == '/'))).map Char.toLower

/-- The raw attribute text following the name inside a start tag. -/
def startAttrsOf (inner : List Char) : List Char :=
  inner.dropWhile (fun c => !(isSpaceC c || c == '/'))

/-- Does the text after `"<!"` open a comment (`"--"`)? -/
def commentStart : List Char → Bool
  | '-' :: '-' :: _ => true
  | _ => false

/-- The scanning loop of `html.parser`, with explicit fuel for structural
recursion; each step consumes at least one character, so the wrapper's fuel
`length + 1` never runs out.  Data is emitted for maximal runs without
`'<'`, with character references decoded.  A `'<'` that begins a completed
start tag, end tag, comment (`<!--...-->`) or declaration (`<!...>`)
consumes that construct (comments and declarations produce no event).  A
`'<'` that does not — including an unterminated construct at end of input —
is emitted as a data event of its own, exactly as `html.parser` does, and
scanning resumes after it. -/
def tokenizeF : Nat → List Char → List Tok
  | 0, _ => []
  | _ + 1, [] => []
  | fuel + 1, c :: t =>
      if c = '<' then
        match t with
        | [] => [Tok.text ['<']]
        | d :: cs =>
            if d = '!' then
              if commentStart cs then
                match afterCommentEnd cs with
                | some u => tokenizeF fuel u
                | none => Tok.text ['<'] :: tokenizeF fuel t
              else
                match breakAtGt cs with
                | some p => tokenizeF fuel p.2
                | none => Tok.text ['<'] :: tokenizeF fuel t
            else if d = '/' then
              match breakAtGt cs with
              | some p =>
                  match (p.1.dropWhile isSpaceC).takeWhile isNameC with
                  | [] => tokenizeF fuel p.2
                  | e :: nm =>
                      if e.isAlpha then
                        Tok.closeT ((e :: nm).map Char.toLower) :: tokenizeF fuel p.2
                      else tokenizeF fuel p.2
              | none => Tok.text ['<'] :: tokenizeF fuel t
            else if d.isAlpha then
              match breakAtGt t with
              | some p =>
                  Tok.openT (startNameOf p.1)
                      (if p.1.getLast? == some '/' then (startAttrsOf p.1).dropLast
                       else startAttrsOf p.1)
                      (p.1.getLast? == some '/') ::
                    tokenizeF fuel p.2
              | none => Tok.text ['<'] :: tokenizeF fuel t
            else Tok.text ['<'] :: tokenizeF fuel t
      else
        Tok.text (decodeRefs (c :: t.takeWhile (fun x => x != '<'))) ::
          tokenizeF fuel (t.dropWhile (fun x => x != '<'))

/-- The markup tokenizer. -/
def tokenize (l : List Char) : List Tok :=
  tokenizeF (l.length + 1) l

mutual

inductive Node where
  | elem (name : List Char) (attrs : List Char) (children : NodeList) : Node
  | txt (s : List Char) : Node

inductive NodeList where
  | nil : NodeList
  | cons (head : Node) (tail : NodeList) : NodeList

end

/-- Convert a plain list of nodes to a `NodeList`. -/
def toNL : List Node → NodeList
  | [] => .nil
  | n :: ns => .cons n (toNL ns)

/-- The HTML void elements: `html.parser`/BeautifulSoup treat their start
tags as complete empty elements. -/
def voidTags : List (List Char) :=
  ["area", "base", "br", "col", "embed", "hr", "img", "input", "link", "meta",
    "param", "source", "track", "wbr"].map String.data

/-- An open element under construction: name, raw attribute text, and the
children collected so far in reverse order. -/
structure Frame where
  name : List Char
  attrs : List Char
  children : List Node

/-- Close the top frame into its parent (or the top level), then keep
popping until a frame named `nm` has been closed — BeautifulSoup's implicit
closing of open elements when an end tag matches a non-top open element. -/
def popTo (nm : List Char) : Frame → List Frame → List Node → List Node × List Frame
  | f, [], acc => (Node.elem f.name f.attrs (toNL f.children.reverse) :: acc, [])
  | f, g :: gs, acc =>
      let g2 : Frame :=
        { g with children := Node.elem f.name f.attrs (toNL f.children.reverse) :: g.children }
      if f.name == nm then (acc, g2 :: gs)
      else popTo nm g2 gs acc

/-- Close every open frame at end of input (implicit closing at EOF). -/
def closeAll : Frame → List Frame → List Node → List Node
  | f, [], acc => Node.elem f.name f.attrs (toNL f.children.reverse) :: acc
  | f, g :: gs, acc =>
      closeAll
        { g with children := Node.elem f.name f.attrs (toNL f.children.reverse) :: g.children }
        gs acc

/-- The tree builder: interpret the event stream against a stack of open
elements, mirroring BeautifulSoup's `html.parser` builder.  Start tags of
void elements (and self-closed tags) become complete empty elements; an end
tag closes the innermost matching open element, implicitly closing anything
above it, and is ignored when nothing matches.  `acc` collects the completed
top-level nodes in reverse order. -/
def buildGo : List Tok → List Node → List Frame → List Node
  | [], acc, [] => acc.reverse
  | [], acc, f :: fs => (closeAll f fs acc).reverse
  | Tok.text s :: ts, acc, [] => buildGo ts (Node.txt s :: acc) []
  | Tok.text s :: ts, acc, f :: fs =>
      buildGo ts acc ({ f with children := Node.txt s :: f.children } :: fs)
  | Tok.openT nm a sc :: ts, acc, stack =>
      if sc || voidTags.contains nm then
        match stack with
        | [] => buildGo ts (Node.elem nm a .nil :: acc) []
        | f :: fs => buildGo ts acc ({ f with children := Node.elem nm a .nil :: f.children } :: fs)
      else buildGo ts acc (⟨nm, a, []⟩ :: stack)
  | Tok.closeT nm :: ts, acc, stack =>
      match stack with
      | [] => buildGo ts acc []
      | f :: fs =>
          if (f :: fs).any (fun fr => fr.name == nm) then
            let p := popTo nm f fs acc
            buildGo ts p.1 p.2
          else buildGo ts acc (f :: fs)

/-- `BeautifulSoup(html, 'html.parser')`: the parsed forest of top-level
nodes. -/
def parseNodes (l : List Char) : NodeList :=
  toNL (buildGo (tokenize l) [] [])

/-- The denylist of `clean_body_content` (scrape.py line 58). -/
def denyTags : List (List Char) :=
  ["script", "style", "meta", "link", "header", "footer", "nav", "aside", "form",
    "button", "iframe", "noscript"].map String.data

/-- `soup([...tags...])` + `tag.decompose()` (scrape.py lines 58–59): remove
every element whose name is denylisted, together with its entire subtree. -/
def removeDenyList : NodeList → NodeList
  | .nil => .nil
  | .cons (Node.txt s) ns => .cons (Node.txt s) (removeDenyList ns)
  | .cons (Node.elem nm a cs) ns =>
      if denyTags.contains nm then removeDenyList ns
      else .cons (Node.elem nm a (removeDenyList cs)) (removeDenyList ns)

/-- All text-node contents of a forest, in document order — the strings a
BeautifulSoup `get_text` traversal visits. -/
def fragsNL : NodeList → List (List Char)
  | .nil => []
  | .cons (Node.txt s) ns => s :: fragsNL ns
  | .cons (Node.elem _ _ cs) ns => fragsNL cs ++ fragsNL ns

/-- The text-node contents that lie outside every denylisted subtree: the
fragments of a forest after denylisted elements are removed. -/
def allowedFragsNL : NodeList → List (List Char)
  | .nil => []
  | .cons (Node.txt s) ns => s :: allowedFragsNL ns
  | .cons (Node.elem nm _ cs) ns =>
      (if denyTags.contains nm then [] else allowedFragsNL cs) ++ allowedFragsNL ns

/-- Text-node contents of a plain node list, in document order. -/
def fragsL : List Node → List (List Char)
  | [] => []
  | Node.txt s :: ns => s :: fragsL ns
  | Node.elem _ _ cs :: ns => fragsNL cs ++ fragsL ns

/-- The `get_text(separator='\n', strip=True)` value of a list of visited
strings: strip each, skip the ones that become empty, join the rest with
the separator. -/
def gtL (ps : List (List Char)) : List Char :=
  joinNL ((ps.map stripL).filter (fun m => m != []))

/-- `soup.get_text(separator='\n', strip=True)` (scrape.py line 61): strip
each visited string, skip the ones that become empty, join the rest with the
separator. -/
def getTextL (ns : NodeList) : List Char :=
  joinNL (((fragsNL ns).map stripL).filter (fun m => m != []))

/-- The post-processing of `clean_body_content` (scrape.py line 62):
`'\n'.join(line for line in text.splitlines() if line.strip())`. -/
def postprocessL (l : List Char) : List Char :=
  joinNL ((splitLinesL l).filter (fun m => stripL m != []))

/-- `clean_body_content` (scrape.py lines 52–64) over character lists. -/
def cleanL (l : List Char) : List Char :=
  if l = [] then []
  else postprocessL (getTextL (removeDenyList (parseNodes l)))

/-- `clean_body_content` (scrape.py lines 52–64). -/
def clean_body_content (s : String) : String :=
  String.mk (cleanL s.data)

/-- `soup.body`: the first element named `body` in document order
(descend-first traversal), returned as its name, raw attribute text and
children. -/
def findBody : NodeList → Option (List Char × List Char × NodeList)
  | .nil => none
  | .cons (Node.txt _) ns => findBody ns
  | .cons (Node.elem nm a cs) ns =>
      if nm == "body".data then some (nm, a, cs)
      else
        match findBody cs with
        | some r => some r
        | none => findBody ns

/-- BeautifulSoup's minimal output formatter escapes `&`, `<`, `>` inside
text when serializing. -/
def escapeMin : List Char → List Char
  | [] => []
  | '&' :: t => '&' :: 'a' :: 'm' :: 'p' :: ';' :: escapeMin t
  | '<' :: t => '&' :: 'l' :: 't' :: ';' :: escapeMin t
  | '>' :: t => '&' :: 'g' :: 't' :: ';' :: escapeMin t
  | c :: t => c :: escapeMin t

mutual

/-- `str(tag)`: serialize a node.  Void elements print as `<name.../>`;
attribute text is carried verbatim (BeautifulSoup re-normalizes attribute
quoting; the repository's inputs of interest carry the text through). -/
def serializeN : Node → List Char
  | Node.txt s => escapeMin s
  | Node.elem nm a cs =>
      if voidTags.contains nm then '<' :: (nm ++ a ++ ['/', '>'])
      else ('<' :: (nm ++ a ++ ['>'])) ++ serializeNL cs ++ ('<' :: '/' :: (nm ++ ['>']))

/-- Serialize a forest: concatenation of its nodes' serializations. -/
def serializeNL : NodeList → List Char
  | .nil => []
  | .cons n ns => serializeN n ++ serializeNL ns

end

/-- `extract_body_content` (scrape.py lines 45–50): `str(soup.body)` when
`soup.body` is truthy, else `""`.  A BeautifulSoup tag with no children is
falsy (`Tag` has list-like length semantics), so an empty body element also
yields `""`. -/
def extract_body_content (html : String) : String :=
  if html = "" then ""
  else
    match findBody (parseNodes html.data) with
    | some (nm, a, cs) =>
        match cs with
        | .nil => ""
        | .cons _ _ => String.mk (serializeN (Node.elem nm a cs))
    | none => ""

/-- Modelled from the spec: "parses `html` as markup and returns the
serialized contents of the body element, or empty string if `html` is empty
or no body element exists" — the *inner* markup of the body, for comparison
with `extract_body_content`. -/
def extractBodySpec (html : String) : String :=
  if html = "" then ""
  else
    match findBody (parseNodes html.data) with
    | some (_, _, cs) => String.mk (serializeNL cs)
    | none => ""

/-- No element of the forest bears a denylisted tag name. -/
def noDenyNL : NodeList → Bool
  | .nil => true
  | .cons (Node.txt _) ns => noDenyNL ns
  | .cons (Node.elem nm _ cs) ns => !denyTags.contains nm && noDenyNL cs && noDenyNL ns

/-- The text payloads of an event stream, in order. -/
def textPayloads : List Tok → List (List Char)
  | [] => []
  | Tok.text s :: ts => s :: textPayloads ts
  | Tok.openT _ _ _ :: ts => textPayloads ts
  | Tok.closeT _ :: ts => textPayloads ts

/-- Shape of a text payload produced by the tokenizer on reference-free
input: either a maximal `'<'`-free run (nonempty, reference-free), or the
lone `"<"` data event. -/
def fragOk (s : List Char) : Bool :=
  (!s.contains '<' && !s.isEmpty && noRefs s) || s == ['<']

/-- Shape of a stripped surviving fragment inside `get_text` output: either
the lone `"<"`, or a stripped, nonempty, `'<'`-free, reference-free piece of
text. -/
def fragElemOk (f : List Char) : Bool :=
  f == ['<'] || (stripL f == f && !f.isEmpty && !f.contains '<' && noRefs f)

/-- Only `'\n'` among the modelled break characters occurs. -/
def onlyNL (l : List Char) : Bool :=
  l.all (fun c => !(c == '\r' || c == '\x0b' || c == '\x0c'))

/-- A well-formed "pure text" block of cleaned output: `'<'`-free,
reference-free, stripped and nonempty, internally broken only by `'\n'`,
with every line non-blank. -/
def pureOk (t : List Char) : Bool :=
  !t.contains '<' && noRefs t && (stripL t == t) && !t.isEmpty && onlyNL t
    && (splitLinesL t).all (fun m => stripL m != [])

/-- The shape of non-empty `clean_body_content` output: an alternation of
pure text blocks and isolated `"<"` lines, joined by `'\n'`.  The Boolean
index records whether the string starts with a pure block, which forbids
two adjacent pure blocks. -/
inductive CS : Bool → List Char → Prop where
  | mark1 : CS false ['<']
  | markCons (b : Bool) (rest : List Char) : CS b rest → CS false ('<' :: '\n' :: rest)
  | pure1 (t : List Char) : pureOk t = true → CS true t
  | pureCons (t rest : List Char) : pureOk t = true → CS false rest →
      CS true (t ++ '\n' :: rest)

mutual

/-- Size of a node, for induction over the mutual node types. -/
def sizeN : Node → Nat
  | .txt _ => 1
  | .elem _ _ cs => 1 + sizeNL cs

/-- Size of a forest, for induction over the mutual node types. -/
def sizeNL : NodeList → Nat
  | .nil => 0
  | .cons n ns => sizeN n + sizeNL ns

end

/-! ## Shared lemmas about the analyzer model -/

theorem warnTagged_append (s r : String) (h : warnTagged s) : warnTagged (s ++ r) := by
  unfold warnTagged at h ⊢
  rw [String.data_append]
  exact h.trans (List.prefix_append _ _)

theorem warnTagged_ne_empty {s : String} (h : warnTagged s) : s ≠ "" := by
  intro he
  subst he
  unfold warnTagged at h
  have := List.eq_nil_of_prefix_nil h
  simp at this

theorem attemptReturn_transient {r : ApiResult} (h : isTransient r = true) :
    attemptReturn r = none := by
  cases r <;> simp_all [isTransient, attemptReturn]

theorem attemptReturn_some_cases {r : ApiResult} {v : String}
    (h : attemptReturn r = some v) :
    warnTagged v ∨ ∃ t, r = .ok t ∧ t ≠ "" ∧ v = pyStrip t := by
  cases r with
  | ok t =>
      by_cases ht : t = ""
      · subst ht; simp [attemptReturn] at h
      · refine Or.inr ⟨t, rfl, ht, ?_⟩
        simp [attemptReturn, ht] at h
        exact h.symm
  | blocked reason =>
      simp [attemptReturn] at h
      exact Or.inl (h ▸ warnTagged_append _ _ (by decide))
  | resourceExhausted m =>
      simp [attemptReturn] at h
      exact Or.inl (h ▸ warnTagged_append _ _ (warnTagged_append _ _ (by decide)))
  | apiError m =>
      simp [attemptReturn] at h
      exact Or.inl (h ▸ warnTagged_append _ _ (by decide))
  | deadlineExceeded m => simp [attemptReturn] at h
  | serviceUnavailable m => simp [attemptReturn] at h
  | otherError m => simp [attemptReturn] at h

theorem processList_result_classified (req : Nat → ApiResult) (m d : Nat) (idx : List Nat) :
    (processList req m d idx).result = none
    ∨ (∃ s, (processList req m d idx).result = some s ∧ warnTagged s)
    ∨ (∃ i t, i ∈ idx ∧ req i = .ok t ∧ t ≠ "" ∧
        (processList req m d idx).result = some (pyStrip t)) := by
  induction idx with
  | nil => exact Or.inl rfl
  | cons a rest ih =>
      cases hA : attemptReturn (req a) with
      | some v =>
          rcases attemptReturn_some_cases hA with hw | ⟨t, hok, hne, hv⟩
          · exact Or.inr (Or.inl ⟨v, by simp [processList, hA], hw⟩)
          · exact Or.inr (Or.inr ⟨a, t, by simp, hok, hne, by simp [processList, hA, hv]⟩)
      | none =>
          by_cases hlt : a < m - 1
          · rcases ih with h | ⟨s, hs, hw⟩ | ⟨i, t, hi, hok, hne, hres⟩
            · exact Or.inl (by simp [processList, hA, hlt, h])
            · exact Or.inr (Or.inl ⟨s, by simp [processList, hA, hlt, hs], hw⟩)
            · exact Or.inr (Or.inr ⟨i, t, by simp [hi], hok, hne,
                by simp [processList, hA, hlt, hres]⟩)
          · exact Or.inl (by simp [processList, hA, hlt])

theorem processList_transient_seg (req : Nat → ApiResult) (m d k : Nat) (t : String)
    (hk : k < m)
    (htr : ∀ i, i < k → isTransient (req i) = true)
    (hok : req k = .ok t) (ht : t ≠ "") :
    ∀ a, a ≤ k → processList req m d (List.range' a (m - a)) =
      ⟨some (pyStrip t), k + 1 - a, (List.range' a (k - a)).map (fun i => d * 2 ^ i)⟩ := by
  intro a ha
  generalize hgen : k - a = n
  induction n generalizing a with
  | zero =>
      have hak : a = k := by omega
      subst hak
      have hm1 : m - a = (m - a - 1) + 1 := by omega
      rw [hm1, List.range'_succ]
      simp [processList, hok, attemptReturn, ht, Nat.add_sub_cancel_left]
  | succ n ih =>
      have hak : a < k := by omega
      have hm2 : m - a = (m - (a + 1)) + 1 := by omega
      have hnone := attemptReturn_transient (htr a hak)
      have hlt : a < m - 1 := by omega
      have ihr := ih (a + 1) (by omega) (by omega)
      have hreq : k + 1 - a = (k + 1 - (a + 1)) + 1 := by omega
      simp only [hm2, List.range'_succ, List.map_cons, processList, hnone, if_pos hlt,
        ihr, hreq]

/-! ## Claim theorems: the Content Analyzer -/

/-- C1 (amended).  For every endpoint behaviour giving transient failures
(deadline/timeout, service-unavailable, or an empty response) on the first
`k` attempts and a response with non-empty text `t` on attempt `k` within
the retry ceiling, `analyze_content` with non-empty content and query
returns `t` stripped of surrounding whitespace — provided the stripped text
is non-empty (a whitespace-only `t` instead yields the retries-exhausted
warning) — makes exactly one request per attempt up to and including the
successful one, and sleeps `retry_delay * 2^attempt` seconds after each
failed non-final attempt. -/
theorem analyze_content_transient_then_success (beh : String → Nat → ApiResult)
    (m d k : Nat) (content query t : String) (history : List String)
    (hc : content ≠ "") (hq : query ≠ "")
    (hk : k < m)
    (htr : ∀ i, i < k → isTransient (beh (promptOf content query history) i) = true)
    (hok : beh (promptOf content query history) k = .ok t)
    (ht : pyStrip t ≠ "") :
    analyze_content beh m d content query history =
      ⟨pyStrip t, k + 1, (List.range k).map (fun i => d * 2 ^ i)⟩ := by
  have htne : t ≠ "" := by
    intro he
    subst he
    exact ht rfl
  unfold analyze_content
  rw [if_neg hc, if_neg hq]
  unfold processLoop
  have hseg := processList_transient_seg (beh (promptOf content query history)) m d k t hk htr
    hok htne 0 (Nat.zero_le k)
  rw [List.range_eq_range']
  simp only [Nat.sub_zero] at hseg
  rw [hseg]
  simp [ht, List.range_eq_range']

/-- C1 witness: two transient failures (a timeout then a service-unavailable)
followed by a successful response within the default ceiling of 3 attempts
yield the stripped text after exactly 3 requests with back-off sleeps of 5
and 10 seconds. -/
theorem analyze_content_transient_then_success_witness :
    ("c" : String) ≠ "" ∧ ("q" : String) ≠ "" ∧ 2 < 3 ∧
    (∀ i, i < 2 → isTransient ((fun (_ : String) (j : Nat) =>
        if j = 0 then ApiResult.deadlineExceeded "t0"
        else if j = 1 then ApiResult.serviceUnavailable "s1"
        else ApiResult.ok " hi ") (promptOf "c" "q" []) i) = true) ∧
    pyStrip " hi " ≠ "" ∧
    analyze_content (fun (_ : String) (j : Nat) =>
        if j = 0 then ApiResult.deadlineExceeded "t0"
        else if j = 1 then ApiResult.serviceUnavailable "s1"
        else ApiResult.ok " hi ") 3 5 "c" "q" [] =
      ⟨pyStrip " hi ", 2 + 1, (List.range 2).map (fun i => 5 * 2 ^ i)⟩ :=
  ⟨by decide, by decide, by decide, by decide, by decide,
    analyze_content_transient_then_success _ 3 5 2 "c" "q" " hi " []
      (by decide) (by decide) (by decide) (by decide) (by decide) (by decide)⟩

/-- C1 counterexample.  The first attempt already carries non-empty text
`" "`, so by the claim `analyze_content` should return its stripped value
`""`; the code instead converts the falsy stripped value into the
retries-exhausted warning. -/
theorem analyze_content_strip_empty_counterexample :
    (" " : String) ≠ "" ∧
    analyze_content (fun _ _ => ApiResult.ok " ") 3 5 "c" "q" [] =
      ⟨"⚠️ Analysis failed after multiple retries or returned no relevant content.", 1, []⟩ ∧
    (analyze_content (fun _ _ => ApiResult.ok " ") 3 5 "c" "q" []).result ≠ pyStrip " " := by
  refine ⟨by decide, by decide, by decide⟩

/-- C3.  If the first request reports quota/resource exhaustion,
`analyze_content` returns a warning-tagged error string after exactly one
request, with no back-off sleep. -/
theorem analyze_content_quota_immediate (beh : String → Nat → ApiResult) (m d : Nat)
    (content query msg : String) (history : List String)
    (hc : content ≠ "") (hq : query ≠ "") (hm : 0 < m)
    (h0 : beh (promptOf content query history) 0 = .resourceExhausted msg) :
    analyze_content beh m d content query history =
      ⟨"⚠️ API Error: Resource limits exceeded. Please check your API quota. ("
        ++ msg ++ ")", 1, []⟩
    ∧ warnTagged ("⚠️ API Error: Resource limits exceeded. Please check your API quota. ("
        ++ msg ++ ")") := by
  have hw : warnTagged ("⚠️ API Error: Resource limits exceeded. Please check your API quota. ("
      ++ msg ++ ")") :=
    warnTagged_append _ _ (warnTagged_append _ _ (by decide))
  refine ⟨?_, hw⟩
  unfold analyze_content
  rw [if_neg hc, if_neg hq]
  unfold processLoop
  have hr : List.range m = 0 :: List.range' 1 (m - 1) := by
    rw [List.range_eq_range']
    have : m = (m - 1) + 1 := by omega
    rw [this, List.range'_succ]
    simp
  rw [hr]
  simp [processList, h0, attemptReturn, warnTagged_ne_empty hw]

/-- C3 witness: quota exhaustion on the first attempt at the defaults. -/
theorem analyze_content_quota_immediate_witness :
    ("c" : String) ≠ "" ∧ ("q" : String) ≠ "" ∧ 0 < 3 ∧
    analyze_content (fun _ _ => ApiResult.resourceExhausted "quota") 3 5 "c" "q" [] =
      ⟨"⚠️ API Error: Resource limits exceeded. Please check your API quota. ("
        ++ "quota" ++ ")", 1, []⟩ :=
  ⟨by decide, by decide, by decide,
    (analyze_content_quota_immediate (fun _ _ => ApiResult.resourceExhausted "quota") 3 5
      "c" "q" "quota" [] (by decide) (by decide) (by decide) rfl).1⟩

/-- C4.  For every content, query, history and endpoint behaviour,
`analyze_content` yields a string (the model is a total function), and every
outcome is either a successful response's non-empty stripped text or a
string carrying the warning-marker prefix. -/
theorem analyze_content_failure_marker (beh : String → Nat → ApiResult) (m d : Nat)
    (content query : String) (history : List String) :
    warnTagged (analyze_content beh m d content query history).result
    ∨ ∃ i t, i < m ∧ beh (promptOf content query history) i = .ok t ∧ pyStrip t ≠ "" ∧
        (analyze_content beh m d content query history).result = pyStrip t := by
  by_cases hc : content = ""
  · subst hc
    left
    have h : (analyze_content beh m d "" query history).result =
        "⚠️ Error: No website content loaded or content is empty." := rfl
    rw [h]
    decide
  by_cases hq : query = ""
  · subst hq
    left
    unfold analyze_content
    rw [if_neg hc]
    exact (by decide : warnTagged "⚠️ Error: Query cannot be empty.")
  rcases processList_result_classified (beh (promptOf content query history)) m d
      (List.range m) with h | ⟨s, hs, hw⟩ | ⟨i, t, hi, hok, hne, hres⟩
  · left
    unfold analyze_content processLoop
    rw [if_neg hc, if_neg hq]
    simp only [h]
    decide
  · by_cases hse : s = ""
    · left
      unfold analyze_content processLoop
      rw [if_neg hc, if_neg hq]
      simp only [hs, hse]
      simp
      decide
    · left
      unfold analyze_content processLoop
      rw [if_neg hc, if_neg hq]
      simp only [hs]
      simpa [hse] using hw
  · by_cases hps : pyStrip t = ""
    · left
      unfold analyze_content processLoop
      rw [if_neg hc, if_neg hq]
      simp only [hres, hps]
      simp
      decide
    · right
      refine ⟨i, t, List.mem_range.mp hi, hok, hps, ?_⟩
      unfold analyze_content processLoop
      rw [if_neg hc, if_neg hq]
      simp [hres, hps]

/-- C5.  Empty content returns the warning-tagged "No website content"
string with zero endpoint requests (no network call); with non-empty content
an empty query likewise returns a warning-tagged string stating the query is
empty, with zero requests. -/
theorem analyze_content_empty_input_checks (beh : String → Nat → ApiResult) (m d : Nat)
    (content query : String) (history : List String) :
    analyze_content beh m d "" query history =
      ⟨"⚠️ Error: No website content loaded or content is empty.", 0, []⟩
    ∧ "⚠️ Error: No website content loaded or content is empty."
        = "⚠️ Error: " ++ "No website content" ++ " loaded or content is empty."
    ∧ warnTagged "⚠️ Error: No website content loaded or content is empty."
    ∧ (content ≠ "" →
        analyze_content beh m d content "" history =
          ⟨"⚠️ Error: Query cannot be empty.", 0, []⟩
        ∧ warnTagged "⚠️ Error: Query cannot be empty.") := by
  refine ⟨rfl, by decide, by decide, fun hc => ⟨?_, by decide⟩⟩
  unfold analyze_content
  rw [if_neg hc]
  rfl

/-- C5 witness: the concrete scenario `analyze("", "What is this?", [])` and
the empty-query case at concrete inputs. -/
theorem analyze_content_empty_input_checks_witness :
    ("c" : String) ≠ "" ∧
    analyze_content (fun _ _ => ApiResult.ok "x") 3 5 "" "What is this?" [] =
      ⟨"⚠️ Error: No website content loaded or content is empty.", 0, []⟩ ∧
    analyze_content (fun _ _ => ApiResult.ok "x") 3 5 "c" "" [] =
      ⟨"⚠️ Error: Query cannot be empty.", 0, []⟩ :=
  ⟨by decide,
    (analyze_content_empty_input_checks (fun _ _ => ApiResult.ok "x") 3 5 "c"
      "What is this?" []).1,
    ((analyze_content_empty_input_checks (fun _ _ => ApiResult.ok "x") 3 5 "c"
      "What is this?" []).2.2.2 (by decide)).1⟩

/-- C10 (implicit).  With both content and query empty, the empty-content
check fires first: the result is the "No website content" warning, not the
empty-query warning. -/
theorem analyze_content_empty_content_priority (beh : String → Nat → ApiResult)
    (m d : Nat) (history : List String) :
    analyze_content beh m d "" "" history =
      ⟨"⚠️ Error: No website content loaded or content is empty.", 0, []⟩
    ∧ (analyze_content beh m d "" "" history).result ≠ "⚠️ Error: Query cannot be empty." := by
  refine ⟨rfl, ?_⟩
  have h : (analyze_content beh m d "" "" history).result =
      "⚠️ Error: No website content loaded or content is empty." := rfl
  rw [h]
  decide

/-- C2.  The prompt embeds the content verbatim between the start/end
delimiters when it is at most 700000 characters long, and embeds exactly its
first 700000 characters when longer; the embedded segment's length is the
minimum of the content length and the budget. -/
theorem promptOf_truncation (content query : String) (history : List String) :
    (content.length ≤ MAX_CONTENT_LENGTH →
      promptOf content query history =
        promptHead ++ content ++ "\n--- END ---\n" ++ contextStr history
          ++ "\n\n**User Query:** " ++ query ++ promptInstructions)
    ∧ (MAX_CONTENT_LENGTH < content.length →
        promptOf content query history =
          promptHead ++ String.mk (content.data.take MAX_CONTENT_LENGTH)
            ++ "\n--- END ---\n" ++ contextStr history
            ++ "\n\n**User Query:** " ++ query ++ promptInstructions
        ∧ (String.mk (content.data.take MAX_CONTENT_LENGTH)).length = MAX_CONTENT_LENGTH)
    ∧ (truncatedContent content).length = min content.length MAX_CONTENT_LENGTH := by
  have hdl : content.length = content.data.length := rfl
  refine ⟨?_, ?_, ?_⟩
  · intro h
    unfold promptOf buildPrompt truncatedContent
    rw [if_neg (by omega)]
  · intro h
    constructor
    · unfold promptOf buildPrompt truncatedContent
      rw [if_pos (by omega)]
    · rw [String.length_mk, List.length_take]
      omega
  · unfold truncatedContent
    by_cases h : content.length > MAX_CONTENT_LENGTH
    · rw [if_pos h, String.length_mk, List.length_take]
      omega
    · rw [if_neg h]
      omega

/-- C2 witness: a 700001-character content is truncated to exactly the first
700000 characters; a short content is embedded unmodified. -/
theorem promptOf_truncation_witness :
    MAX_CONTENT_LENGTH < (String.mk (List.replicate 700001 'a')).length
    ∧ promptOf (String.mk (List.replicate 700001 'a')) "q" [] =
        promptHead ++ String.mk ((String.mk (List.replicate 700001 'a')).data.take
            MAX_CONTENT_LENGTH)
          ++ "\n--- END ---\n" ++ contextStr []
          ++ "\n\n**User Query:** " ++ "q" ++ promptInstructions
    ∧ ("abc" : String).length ≤ MAX_CONTENT_LENGTH
    ∧ promptOf "abc" "q" [] =
        promptHead ++ "abc" ++ "\n--- END ---\n" ++ contextStr []
          ++ "\n\n**User Query:** " ++ "q" ++ promptInstructions := by
  have hlen : MAX_CONTENT_LENGTH < (String.mk (List.replicate 700001 'a')).length := by
    rw [String.length_mk, List.length_replicate]
    norm_num [MAX_CONTENT_LENGTH]
  exact ⟨hlen,
    ((promptOf_truncation (String.mk (List.replicate 700001 'a')) "q" []).2.1 hlen).1,
    by decide,
    (promptOf_truncation "abc" "q" []).1 (by decide)⟩

/-- C9.  The prompt contains the context section exactly when the history is
non-empty; the section holds the last four history entries (all of them when
fewer), each labelled "User"/"Assistant" purely by its index parity within
that window. -/
theorem buildPrompt_history_window (content query : String) (history : List String) :
    buildPrompt content query history =
      promptHead ++ content ++ "\n--- END ---\n" ++ contextStr history
        ++ "\n\n**User Query:** " ++ query ++ promptInstructions
    ∧ (history = [] → contextStr history = "")
    ∧ (history ≠ [] →
        contextStr history =
          "\nPrevious Conversation Context:\n" ++ "\n".intercalate (contextLines history))
    ∧ (lastWindow history).length = min 4 history.length
    ∧ (history.length ≤ 4 → lastWindow history = history)
    ∧ ∀ i : Nat,
        (contextLines history)[i]? =
          ((lastWindow history)[i]?).map
            (fun msg => (if i % 2 = 0 then "User" else "Assistant") ++ ": " ++ msg) := by
  refine ⟨rfl, ?_, ?_, ?_, ?_, ?_⟩
  · intro h
    subst h
    rfl
  · intro h
    unfold contextStr
    rw [if_neg (by simpa using h)]
  · unfold lastWindow
    rw [List.length_drop]
    omega
  · intro h
    unfold lastWindow
    have h0 : history.length - 4 = 0 := by omega
    rw [h0, List.drop_zero]
  · intro i
    unfold contextLines
    rw [List.getElem?_map, List.getElem?_enum]
    cases (lastWindow history)[i]? <;> simp

/-! ## Shared lemmas about the cleaner model -/

theorem sizeN_pos (n : Node) : 1 ≤ sizeN n := by
  cases n <;> simp [sizeN]

theorem fragsRemoveDenyAux : ∀ (S : Nat) (ns : NodeList), sizeNL ns ≤ S →
    fragsNL (removeDenyList ns) = allowedFragsNL ns := by
  intro S
  induction S with
  | zero =>
      intro ns h
      cases ns with
      | nil => rfl
      | cons n tail =>
          have := sizeN_pos n
          simp [sizeNL] at h
          omega
  | succ S ih =>
      intro ns h
      cases ns with
      | nil => rfl
      | cons n tail =>
          cases n with
          | txt s =>
              simp only [removeDenyList, fragsNL, allowedFragsNL]
              rw [ih tail (by simp [sizeNL, sizeN] at h; omega)]
          | elem nm a cs =>
              by_cases hd : denyTags.contains nm
              · simp only [removeDenyList, allowedFragsNL, hd, if_true]
                rw [ih tail (by simp [sizeNL, sizeN] at h; omega)]
                simp
              · simp only [removeDenyList, fragsNL, allowedFragsNL,
                  Bool.not_eq_true] at hd ⊢
                simp only [hd, if_false, fragsNL]
                rw [ih cs (by simp [sizeNL, sizeN] at h; omega),
                  ih tail (by simp [sizeNL, sizeN] at h; omega)]
                simp

theorem frags_removeDeny (ns : NodeList) :
    fragsNL (removeDenyList ns) = allowedFragsNL ns :=
  fragsRemoveDenyAux (sizeNL ns) ns le_rfl

theorem findBodyNameAux : ∀ (S : Nat) (ns : NodeList) (nm a : List Char) (cs : NodeList),
    sizeNL ns ≤ S → findBody ns = some (nm, a, cs) → nm = "body".data := by
  intro S
  induction S with
  | zero =>
      intro ns nm a cs h hf
      cases ns with
      | nil => simp [findBody] at hf
      | cons n tail =>
          have := sizeN_pos n
          simp [sizeNL] at h
          omega
  | succ S ih =>
      intro ns nm a cs h hf
      cases ns with
      | nil => simp [findBody] at hf
      | cons n tail =>
          cases n with
          | txt s =>
              exact ih tail nm a cs (by simp [sizeNL, sizeN] at h; omega)
                (by simpa [findBody] using hf)
          | elem nm2 a2 cs2 =>
              by_cases hb : nm2 == "body".data
              · simp only [findBody, if_pos hb, Option.some.injEq] at hf
                have : nm2 = nm := congrArg (fun p => p.1) hf
                subst this
                simpa using hb
              · simp only [findBody, if_neg hb] at hf
                cases hfc : findBody cs2 with
                | some r =>
                    rw [hfc] at hf
                    exact ih cs2 nm a cs (by simp [sizeNL, sizeN] at h; omega)
                      (hfc.trans hf)
                | none =>
                    rw [hfc] at hf
                    exact ih tail nm a cs (by simp [sizeNL, sizeN] at h; omega) hf

theorem findBody_name {ns : NodeList} {nm a : List Char} {cs : NodeList}
    (h : findBody ns = some (nm, a, cs)) : nm = "body".data :=
  findBodyNameAux (sizeNL ns) ns nm a cs le_rfl h

/-! ## Shared lemmas for cleaning idempotence: references and stripping -/

theorem leadsWith_iff (p l : List Char) : leadsWith p l = true ↔ p <+: l := by
  induction p generalizing l with
  | nil => simp [leadsWith]
  | cons c ps ih =>
      cases l with
      | nil => simp [leadsWith]
      | cons d t => simp [leadsWith, ih, List.cons_prefix_cons]

theorem refAtHead_iff (l : List Char) :
    refAtHead l = true ↔ ∃ p ∈ refPats, p <+: l := by
  unfold refAtHead
  simp [List.any_eq_true, leadsWith_iff]

theorem refAtHead_mono {l t : List Char} (h : refAtHead l = true) :
    refAtHead (l ++ t) = true := by
  rw [refAtHead_iff] at h ⊢
  obtain ⟨p, hp, hpre⟩ := h
  exact ⟨p, hp, hpre.trans (List.prefix_append l t)⟩

theorem noRefs_cons {c : Char} {t : List Char} :
    noRefs (c :: t) = true ↔ refAtHead (c :: t) = false ∧ noRefs t = true := by
  simp [noRefs]

theorem noRefs_append_left {a b : List Char} (h : noRefs (a ++ b) = true) :
    noRefs a = true := by
  induction a with
  | nil => rfl
  | cons c a' ih =>
      rw [List.cons_append, noRefs_cons] at h
      rw [noRefs_cons]
      refine ⟨?_, ih h.2⟩
      cases hr : refAtHead (c :: a') with
      | false => rfl
      | true =>
          have := refAtHead_mono (t := b) hr
          rw [List.cons_append] at this
          rw [this] at h
          exact absurd h.1 (by simp)

theorem noRefs_append_right {a b : List Char} (h : noRefs (a ++ b) = true) :
    noRefs b = true := by
  induction a with
  | nil => exact h
  | cons c a' ih =>
      rw [List.cons_append, noRefs_cons] at h
      exact ih h.2

theorem noRefs_infix {l m : List Char} (h : noRefs l = true) (hm : m <:+: l) :
    noRefs m = true := by
  obtain ⟨s, t, hst⟩ := hm
  subst hst
  exact noRefs_append_right (noRefs_append_left h)

theorem prefix_append_cases {α : Type} {p a b : List α} (h : p <+: a ++ b) :
    p <+: a ∨ ∃ s, p = a ++ s ∧ s <+: b := by
  induction a generalizing p with
  | nil => exact Or.inr ⟨p, rfl, by simpa using h⟩
  | cons x a' ih =>
      cases p with
      | nil => exact Or.inl List.nil_prefix
      | cons y p' =>
          rw [List.cons_append, List.cons_prefix_cons] at h
          obtain ⟨rfl, h2⟩ := h
          rcases ih h2 with h3 | ⟨s, rfl, hs⟩
          · exact Or.inl (by rw [List.cons_prefix_cons]; exact ⟨rfl, h3⟩)
          · exact Or.inr ⟨s, by simp, hs⟩

theorem refAtHead_append_nl {a b : List Char} (ha : refAtHead a = false) :
    refAtHead (a ++ '\n' :: b) = false := by
  cases hr : refAtHead (a ++ '\n' :: b) with
  | false => rfl
  | true =>
      exfalso
      rw [refAtHead_iff] at hr
      obtain ⟨p, hp, hpre⟩ := hr
      rcases prefix_append_cases hpre with h3 | ⟨s, rfl, hs⟩
      · have : refAtHead a = true := (refAtHead_iff a).mpr ⟨p, hp, h3⟩
        rw [this] at ha
        exact absurd ha (by simp)
      · cases s with
        | nil =>
            have : refAtHead a = true :=
              (refAtHead_iff a).mpr ⟨a ++ [], hp, by simp⟩
            rw [this] at ha
            exact absurd ha (by simp)
        | cons z s' =>
            rw [List.cons_prefix_cons] at hs
            obtain ⟨rfl, _⟩ := hs
            have hnl : ('\n' : Char) ∈ a ++ '\n' :: s' := by simp
            have : ('\n' : Char) ∉ a ++ '\n' :: s' := by
              revert hp
              have hpats : ∀ q ∈ refPats, ('\n' : Char) ∉ q := by decide
              exact fun hp => hpats _ hp
            exact this hnl

theorem noRefs_append_nl {a b : List Char} (ha : noRefs a = true) (hb : noRefs b = true) :
    noRefs (a ++ '\n' :: b) = true := by
  induction a with
  | nil =>
      simp only [List.nil_append]
      rw [noRefs_cons]
      exact ⟨by simpa using refAtHead_append_nl (a := []) (b := b) (by decide), hb⟩
  | cons c a' ih =>
      rw [noRefs_cons] at ha
      rw [List.cons_append, noRefs_cons]
      constructor
      · have := refAtHead_append_nl (a := c :: a') (b := b) ha.1
        rwa [List.cons_append] at this
      · exact ih ha.2

set_option maxHeartbeats 1000000 in
theorem decodeRefs_noRefs : ∀ l : List Char, noRefs l = true → decodeRefs l = l := by
  intro l
  induction l with
  | nil => intro _; rfl
  | cons c t ih =>
      intro h
      rw [noRefs_cons] at h
      rw [decodeRefs.eq_def]
      split
      · next heq => exact heq.symm
      · next rest heq =>
          exfalso
          injection heq with h1 h2
          subst h1
          subst h2
          have hr : refAtHead ('&' :: 'l' :: 't' :: ';' :: rest) = true := by
            simp [refAtHead, refPats, leadsWith]
          rw [h.1] at hr
          exact Bool.noConfusion hr
      · next rest heq =>
          exfalso
          injection heq with h1 h2
          subst h1
          subst h2
          have hr : refAtHead ('&' :: 'g' :: 't' :: ';' :: rest) = true := by
            simp [refAtHead, refPats, leadsWith]
          rw [h.1] at hr
          exact Bool.noConfusion hr
      · next rest heq =>
          exfalso
          injection heq with h1 h2
          subst h1
          subst h2
          have hr : refAtHead ('&' :: 'a' :: 'm' :: 'p' :: ';' :: rest) = true := by
            simp [refAtHead, refPats, leadsWith]
          rw [h.1] at hr
          exact Bool.noConfusion hr
      · next rest heq =>
          exfalso
          injection heq with h1 h2
          subst h1
          subst h2
          have hr : refAtHead ('&' :: 'q' :: 'u' :: 'o' :: 't' :: ';' :: rest) = true := by
            simp [refAtHead, refPats, leadsWith]
          rw [h.1] at hr
          exact Bool.noConfusion hr
      · next rest heq =>
          exfalso
          injection heq with h1 h2
          subst h1
          subst h2
          have hr : refAtHead ('&' :: 'a' :: 'p' :: 'o' :: 's' :: ';' :: rest) = true := by
            simp [refAtHead, refPats, leadsWith]
          rw [h.1] at hr
          exact Bool.noConfusion hr
      · next c' rest heq =>
          injection heq with h1 h2
          subst h1
          subst h2
          rw [ih h.2]

theorem dropWhile_head_false {p : Char → Bool} {l : List Char}
    (h : ∀ c, l.head? = some c → p c = false) : l.dropWhile p = l := by
  cases l with
  | nil => rfl
  | cons c t =>
      rw [List.dropWhile_cons, h c rfl]
      simp

theorem dropWhile_head? {p : Char → Bool} {l : List Char} :
    ∀ c, (l.dropWhile p).head? = some c → p c = false := by
  induction l with
  | nil => intro c h; simp [List.dropWhile] at h
  | cons d t ih =>
      intro c h
      rw [List.dropWhile_cons] at h
      by_cases hd : p d
      · rw [if_pos hd] at h
        exact ih c h
      · rw [if_neg hd] at h
        simp only [List.head?_cons, Option.some.injEq] at h
        subst h
        simpa using hd

theorem IsPrefix_head? {α : Type} {p m : List α} (h : p <+: m) (hp : p ≠ []) :
    m.head? = p.head? := by
  obtain ⟨t, rfl⟩ := h
  rw [List.head?_append]
  cases p with
  | nil => exact absurd rfl hp
  | cons a q => rfl

theorem stripL_prefix (l : List Char) : stripL l <+: l.dropWhile isSpaceC := by
  have h := List.dropWhile_suffix (l := (l.dropWhile isSpaceC).reverse) isSpaceC
  have h2 := List.reverse_prefix.mpr h
  simpa [stripL] using h2

theorem stripL_infix (l : List Char) : stripL l <:+: l :=
  (( stripL_prefix l).isInfix).trans (List.dropWhile_suffix _).isInfix

theorem stripL_mem {c : Char} {l : List Char} (h : c ∈ stripL l) : c ∈ l :=
  ( stripL_infix l).subset h

theorem stripL_noRefs {l : List Char} (h : noRefs l = true) : noRefs (stripL l) = true :=
  noRefs_infix h ( stripL_infix l)

theorem stripL_head? {l : List Char} {c : Char} (h : (stripL l).head? = some c) :
    isSpaceC c = false := by
  have hne : stripL l ≠ [] := by
    intro h0
    rw [h0] at h
    simp at h
  have heq := IsPrefix_head? ( stripL_prefix l) hne
  exact dropWhile_head? c (heq.trans h)

theorem stripL_reverse (l : List Char) :
    (stripL l).reverse = ((l.dropWhile isSpaceC).reverse).dropWhile isSpaceC := by
  unfold stripL
  simp

theorem stripL_last? {l : List Char} {c : Char} (h : (stripL l).getLast? = some c) :
    isSpaceC c = false := by
  rw [← List.head?_reverse, stripL_reverse] at h
  exact dropWhile_head? c h

theorem stripL_eq_self {l : List Char}
    (h1 : ∀ c, l.head? = some c → isSpaceC c = false)
    (h2 : ∀ c, l.getLast? = some c → isSpaceC c = false) : stripL l = l := by
  unfold stripL
  rw [dropWhile_head_false h1]
  rw [dropWhile_head_false (p := isSpaceC) (l := l.reverse)
    (fun c hc => h2 c (by rwa [List.head?_reverse] at hc))]
  exact List.reverse_reverse l

theorem stripL_idem (l : List Char) : stripL (stripL l) = stripL l :=
  stripL_eq_self (fun _ h => stripL_head? h) (fun _ h => stripL_last? h)

theorem stripL_cons_space {c : Char} (h : isSpaceC c = true) (l : List Char) :
    stripL (c :: l) = stripL l := by
  unfold stripL
  rw [List.dropWhile_cons, if_pos h]

theorem stripL_ne_nil {c : Char} {l : List Char} (h : isSpaceC c = false) :
    stripL (c :: l) ≠ [] := by
  intro hx
  unfold stripL at hx
  have hfirst : List.dropWhile isSpaceC (c :: l) = c :: l :=
    dropWhile_head_false
      (by intro d hd; simp only [List.head?_cons, Option.some.injEq] at hd; rwa [← hd])
  rw [hfirst] at hx
  have h4 := congrArg List.reverse hx
  rw [List.reverse_reverse, List.reverse_nil] at h4
  rw [List.dropWhile_eq_nil_iff] at h4
  have h3 := h4 c (by simp)
  rw [h3] at h
  exact Bool.noConfusion h

theorem stripL_append_space {c : Char} (h : isSpaceC c = true) (l : List Char) :
    stripL (l ++ [c]) = stripL l := by
  unfold stripL
  rw [List.dropWhile_append]
  by_cases he : (l.dropWhile isSpaceC).isEmpty
  · rw [if_pos he]
    rw [List.isEmpty_iff] at he
    rw [he]
    simp [List.dropWhile_cons, h, List.dropWhile_nil]
  · rw [if_neg he]
    simp [List.reverse_append, List.dropWhile_cons, h]

/-! ## Shared lemmas for cleaning idempotence: lines and joins -/

theorem SL_r_other {d : Char} (hd : d ≠ '\n') (r : List Char) :
    splitLinesL ('\r' :: d :: r) = [] :: splitLinesL (d :: r) := by
  rw [splitLinesL.eq_def]
  split
  · next heq => exact absurd heq (by simp)
  · next t heq =>
      injection heq with h1 h2
      injection h2 with h3 h4
      exact absurd h3 hd
  · next t hside heq =>
      injection heq with h1 h2
      subst h2
      rfl
  · next c t hside1 hside2 heq =>
      injection heq with h1 h2
      exact absurd h1.symm hside2

theorem SL_cons_break {c : Char} (h1 : isBreakC c = true) (h2 : c ≠ '\r') (t : List Char) :
    splitLinesL (c :: t) = [] :: splitLinesL t := by
  rw [splitLinesL.eq_def]
  split
  · next heq => exact absurd heq (by simp)
  · next t' heq =>
      injection heq with ha hb
      exact absurd ha h2
  · next t' hside heq =>
      injection heq with ha hb
      exact absurd ha h2
  · next c' t' hside1 hside2 heq =>
      injection heq with ha hb
      subst ha
      subst hb
      rw [if_pos h1]

theorem SL_cons {c : Char} (h : isBreakC c = false) (t : List Char) :
    splitLinesL (c :: t) =
      (match splitLinesL t with
       | [] => [[c]]
       | m :: ms => (c :: m) :: ms) := by
  rw [splitLinesL.eq_def]
  split
  · next heq => exact absurd heq (by simp)
  · next t' heq =>
      injection heq with ha hb
      subst ha
      exact absurd h (by simp [isBreakC])
  · next t' hside heq =>
      injection heq with ha hb
      subst ha
      exact absurd h (by simp [isBreakC])
  · next c' t' hside1 hside2 heq =>
      injection heq with ha hb
      subst ha
      subst hb
      rw [if_neg (by rw [h]; exact Bool.noConfusion)]

theorem SL_r_nl (t : List Char) :
    splitLinesL ('\r' :: '\n' :: t) = [] :: splitLinesL t := rfl

theorem SL_ne_nil : ∀ {l : List Char}, l ≠ [] → splitLinesL l ≠ [] := by
  intro l hl hx
  cases l with
  | nil => exact hl rfl
  | cons c t =>
      by_cases hb : isBreakC c
      · by_cases hc : c = '\r'
        · subst hc
          cases t with
          | nil => simp [splitLinesL] at hx
          | cons d t' =>
              by_cases hd : d = '\n'
              · subst hd
                rw [SL_r_nl] at hx
                exact List.noConfusion hx
              · rw [SL_r_other hd] at hx
                exact List.noConfusion hx
        · rw [SL_cons_break hb hc] at hx
          exact List.noConfusion hx
      · rw [SL_cons (by simpa using hb)] at hx
        cases hs : splitLinesL t with
        | nil =>
            rw [hs] at hx
            simp at hx
        | cons m ms =>
            rw [hs] at hx
            simp at hx

theorem SL_append_nl : ∀ (a : List Char), ∀ (b : List Char), a ≠ [] →
    (∀ c, a.getLast? = some c → isBreakC c = false) →
    splitLinesL (a ++ '\n' :: b) = splitLinesL a ++ splitLinesL b := by
  intro a
  induction a with
  | nil => intro b h _; exact absurd rfl h
  | cons c a' ih =>
      intro b _ hlast
      by_cases hb : isBreakC c
      · cases a' with
        | nil =>
            have := hlast c (by simp)
            rw [hb] at this
            exact Bool.noConfusion this
        | cons d a'' =>
            by_cases hc : c = '\r'
            · subst hc
              by_cases hd : d = '\n'
              · subst hd
                rw [List.cons_append, List.cons_append, SL_r_nl, SL_r_nl, List.cons_append]
                cases a'' with
                | nil =>
                    have := hlast '\n' (by simp)
                    exact absurd this (by decide)
                | cons e a3 =>
                    have hih := ih b (by simp)
                      (by intro x hx; apply hlast; rw [List.getLast?_cons_cons]; exact hx)
                    rw [List.cons_append, SL_cons_break (by decide) (by decide),
                      SL_cons_break (by decide) (by decide), List.cons_append] at hih
                    injection hih with _ h2
                    rw [List.cons_append, h2]
                    simp
              · have hih := ih b (by simp)
                  (by intro x hx; apply hlast; rw [List.getLast?_cons_cons]; exact hx)
                rw [List.cons_append, List.cons_append, SL_r_other hd, SL_r_other hd]
                rw [List.cons_append] at hih
                rw [hih]
                simp
            · rw [List.cons_append, SL_cons_break hb hc, SL_cons_break hb hc]
              rw [ih b (by simp)
                (by intro x hx; apply hlast; rw [List.getLast?_cons_cons]; exact hx)]
              simp
      · have hnb : isBreakC c = false := by simpa using hb
        cases a' with
        | nil =>
            rw [List.singleton_append, SL_cons hnb, SL_cons hnb]
            rw [SL_cons_break (by decide) (by decide)]
            simp [splitLinesL]
        | cons d a'' =>
            have hih := ih b (by simp)
              (by intro x hx; apply hlast; rw [List.getLast?_cons_cons]; exact hx)
            rw [List.cons_append, SL_cons hnb, SL_cons hnb, hih]
            cases hs : splitLinesL (d :: a'') with
            | nil => exact absurd hs (SL_ne_nil (by simp))
            | cons m ms => simp

theorem SL_memAux : ∀ (N : Nat) (l : List Char), l.length ≤ N →
    (∀ m ∈ splitLinesL l, (∀ c ∈ m, isBreakC c = false) ∧ m <:+: l)
    ∧ (∀ m ms, splitLinesL l = m :: ms → m <+: l) := by
  intro N
  induction N with
  | zero =>
      intro l hl
      have hnil : l = [] := by
        cases l with
        | nil => rfl
        | cons => simp at hl
      subst hnil
      exact ⟨by intro m hm; simp [splitLinesL] at hm, by intro m ms h; simp [splitLinesL] at h⟩
  | succ N ih =>
      intro l hl
      cases l with
      | nil =>
          exact ⟨by intro m hm; simp [splitLinesL] at hm,
            by intro m ms h; simp [splitLinesL] at h⟩
      | cons d t =>
          by_cases hb : isBreakC d
          · have hstep : ∃ t', splitLinesL (d :: t) = [] :: splitLinesL t' ∧
                (t' = t ∨ ∃ t2, t = '\n' :: t2 ∧ t' = t2) := by
              by_cases hd : d = '\r'
              · subst hd
                cases t with
                | nil => exact ⟨[], by simp [splitLinesL], Or.inl rfl⟩
                | cons e t2 =>
                    by_cases he : e = '\n'
                    · subst he
                      exact ⟨t2, by rw [SL_r_nl], Or.inr ⟨t2, rfl, rfl⟩⟩
                    · exact ⟨e :: t2, by rw [SL_r_other he], Or.inl rfl⟩
              · exact ⟨t, by rw [SL_cons_break hb hd], Or.inl rfl⟩
            obtain ⟨t', hSL, ht'⟩ := hstep
            have hlen : t'.length ≤ N := by
              rcases ht' with rfl | ⟨t2, rfl, rfl⟩
              · simp at hl; omega
              · simp at hl; omega
            have hsub : ∀ m, m <:+: t' → m <:+: d :: t := by
              intro m hm
              rcases ht' with rfl | ⟨t2, rfl, rfl⟩
              · exact List.infix_cons hm
              · exact List.infix_cons (List.infix_cons hm)
            constructor
            · intro m hm
              rw [hSL] at hm
              rcases List.mem_cons.mp hm with rfl | hm2
              · exact ⟨by intro c hc; simp at hc, List.nil_infix⟩
              · obtain ⟨h1, h2⟩ := (ih t' hlen).1 m hm2
                exact ⟨h1, hsub m h2⟩
            · intro m ms h
              rw [hSL] at h
              injection h with h1 _
              rw [← h1]
              exact List.nil_prefix
          · have hnb : isBreakC d = false := by simpa using hb
            constructor
            · intro m hm
              rw [SL_cons hnb] at hm
              cases hs : splitLinesL t with
              | nil =>
                  rw [hs] at hm
                  simp at hm
                  subst hm
                  refine ⟨by intro c hc; simp at hc; rwa [hc], ?_⟩
                  exact (List.cons_prefix_cons.mpr ⟨rfl, List.nil_prefix⟩).isInfix
              | cons m0 ms0 =>
                  rw [hs] at hm
                  rcases List.mem_cons.mp hm with rfl | hm2
                  · have hpre := (ih t (by simp at hl; omega)).2 m0 ms0 hs
                    constructor
                    · intro c hc
                      rcases List.mem_cons.mp hc with rfl | hc2
                      · exact hnb
                      · exact ((ih t (by simp at hl; omega)).1 m0
                          (by rw [hs]; exact List.mem_cons_self _ _)).1 c hc2
                    · exact (List.cons_prefix_cons.mpr ⟨rfl, hpre⟩).isInfix
                  · obtain ⟨h1, h2⟩ := (ih t (by simp at hl; omega)).1 m
                      (by rw [hs]; exact List.mem_cons_of_mem _ hm2)
                    exact ⟨h1, List.infix_cons h2⟩
            · intro m ms h
              rw [SL_cons hnb] at h
              cases hs : splitLinesL t with
              | nil =>
                  rw [hs] at h
                  simp at h
                  rw [← h.1]
                  exact List.cons_prefix_cons.mpr ⟨rfl, List.nil_prefix⟩
              | cons m0 ms0 =>
                  rw [hs] at h
                  injection h with h1 _
                  rw [← h1]
                  exact List.cons_prefix_cons.mpr ⟨rfl, (ih t (by simp at hl; omega)).2 m0 ms0 hs⟩

theorem SL_mem_noBreak {l m : List Char} (hm : m ∈ splitLinesL l) :
    ∀ c ∈ m, isBreakC c = false :=
  ((SL_memAux l.length l le_rfl).1 m hm).1

theorem SL_mem_infix {l m : List Char} (hm : m ∈ splitLinesL l) : m <:+: l :=
  ((SL_memAux l.length l le_rfl).1 m hm).2

theorem SL_head_prefix {l m : List Char} {ms : List (List Char)}
    (h : splitLinesL l = m :: ms) : m <+: l :=
  (SL_memAux l.length l le_rfl).2 m ms h

theorem getLast?_mem {α : Type} : ∀ {l : List α} {c : α}, l.getLast? = some c → c ∈ l := by
  intro l
  induction l with
  | nil => intro c h; simp at h
  | cons a t ih =>
      intro c h
      cases t with
      | nil =>
          simp at h
          simp [h]
      | cons b t' =>
          rw [List.getLast?_cons_cons] at h
          exact List.mem_cons_of_mem a (ih h)

theorem join_cons {ms : List (List Char)} (h : ms ≠ []) (m : List Char) :
    joinNL (m :: ms) = m ++ '\n' :: joinNL ms := by
  cases ms with
  | nil => exact absurd rfl h
  | cons a as => rfl

theorem join_ne_nil {m : List Char} (hm : m ≠ []) (ms : List (List Char)) :
    joinNL (m :: ms) ≠ [] := by
  cases ms with
  | nil => exact hm
  | cons a as => simp [joinNL]

theorem SL_noBreak_single : ∀ {m : List Char}, m ≠ [] →
    (∀ c ∈ m, isBreakC c = false) → splitLinesL m = [m] := by
  intro m
  induction m with
  | nil => intro h _; exact absurd rfl h
  | cons c m' ih =>
      intro _ hnb
      rw [SL_cons (hnb c (by simp))]
      cases m' with
      | nil => simp [splitLinesL]
      | cons d m'' =>
          rw [ih (by simp) (fun x hx => hnb x (List.mem_cons_of_mem c hx))]

theorem SL_of_join : ∀ (L : List (List Char)), (∀ m ∈ L, m ≠ []) →
    (∀ m ∈ L, ∀ c ∈ m, isBreakC c = false) → splitLinesL (joinNL L) = L := by
  intro L
  induction L with
  | nil => intro _ _; rfl
  | cons m L' ih =>
      intro hne hnb
      cases L' with
      | nil => exact SL_noBreak_single (hne m (by simp)) (hnb m (by simp))
      | cons m2 L'' =>
          rw [join_cons (by simp)]
          rw [SL_append_nl m _ (hne m (by simp))
            (by
              intro c hc
              exact hnb m (by simp) c (getLast?_mem hc))]
          rw [SL_noBreak_single (hne m (by simp)) (hnb m (by simp))]
          rw [ih (fun x hx => hne x (List.mem_cons_of_mem m hx))
            (fun x hx => hnb x (List.mem_cons_of_mem m hx))]
          rfl

theorem join_SL : ∀ (N : Nat) (l : List Char), l.length ≤ N →
    (∀ c ∈ l, (c == '\r' || c == '\x0b' || c == '\x0c') = false) →
    (∀ c, l.getLast? = some c → c ≠ '\n') →
    joinNL (splitLinesL l) = l := by
  intro N
  induction N with
  | zero =>
      intro l hl _ _
      have hnil : l = [] := by
        cases l with
        | nil => rfl
        | cons => simp at hl
      subst hnil
      rfl
  | succ N ih =>
      intro l hl honly hlast
      cases l with
      | nil => rfl
      | cons c t =>
          by_cases hc : c = '\n'
          · subst hc
            cases t with
            | nil => exact absurd (hlast '\n' (by simp)) (by simp)
            | cons d t' =>
                rw [SL_cons_break (by decide) (by decide)]
                rw [join_cons (SL_ne_nil (by simp))]
                rw [ih (d :: t') (by simp at hl ⊢; omega)
                  (fun x hx => honly x (List.mem_cons_of_mem _ hx))
                  (by intro x hx; apply hlast; rwa [List.getLast?_cons_cons])]
                rfl
          · have hnb : isBreakC c = false := by
              have h0 := honly c (by simp)
              simp only [isBreakC, Bool.or_eq_false_iff, beq_eq_false_iff_ne, ne_eq] at h0 ⊢
              exact ⟨⟨⟨hc, h0.1.1⟩, h0.1.2⟩, h0.2⟩
            rw [SL_cons hnb]
            cases t with
            | nil => simp [splitLinesL, joinNL]
            | cons d t' =>
                have hjoin := ih (d :: t') (by simp at hl ⊢; omega)
                  (fun x hx => honly x (List.mem_cons_of_mem _ hx))
                  (by intro x hx; apply hlast; rwa [List.getLast?_cons_cons])
                cases hs : splitLinesL (d :: t') with
                | nil => exact absurd hs (SL_ne_nil (by simp))
                | cons m0 ms0 =>
                    rw [hs] at hjoin
                    cases ms0 with
                    | nil =>
                        simp [joinNL] at hjoin
                        simp [joinNL, hjoin]
                    | cons m1 ms1 =>
                        rw [join_cons (by simp)] at hjoin
                        rw [join_cons (by simp)]
                        rw [← hjoin]
                        simp

theorem join_append : ∀ (A B : List (List Char)), A ≠ [] → B ≠ [] →
    joinNL (A ++ B) = joinNL A ++ '\n' :: joinNL B := by
  intro A
  induction A with
  | nil => intro B h _; exact absurd rfl h
  | cons a A' ih =>
      intro B _ hB
      cases A' with
      | nil =>
          rw [List.singleton_append, join_cons hB]
          rfl
      | cons a2 A'' =>
          rw [List.cons_append, join_cons (by simp), join_cons (by simp),
            ih B (by simp) hB]
          simp

theorem join_mem {c : Char} : ∀ {ms : List (List Char)}, c ∈ joinNL ms →
    c = '\n' ∨ ∃ m ∈ ms, c ∈ m := by
  intro ms
  induction ms with
  | nil => intro h; simp [joinNL] at h
  | cons m ms' ih =>
      intro h
      cases ms' with
      | nil => exact Or.inr ⟨m, by simp, h⟩
      | cons m2 ms'' =>
          rw [join_cons (by simp)] at h
          rcases List.mem_append.mp h with h1 | h2
          · exact Or.inr ⟨m, by simp, h1⟩
          · rcases List.mem_cons.mp h2 with rfl | h3
            · exact Or.inl rfl
            · rcases ih h3 with h4 | ⟨m3, hm3, hc3⟩
              · exact Or.inl h4
              · exact Or.inr ⟨m3, List.mem_cons_of_mem m hm3, hc3⟩

theorem join_getLast? : ∀ (ms0 : List (List Char)) (m : List Char), m ≠ [] →
    (joinNL (ms0 ++ [m])).getLast? = m.getLast? := by
  intro ms0
  induction ms0 with
  | nil => intro m _; rfl
  | cons a ms' ih =>
      intro m hm
      rw [List.cons_append, join_cons (by simp)]
      rw [List.getLast?_append]
      have h1 := ih m hm
      have h2 : joinNL (ms' ++ [m]) ≠ [] := by
        cases ms' with
        | nil => simpa using hm
        | cons b ms'' => rw [List.cons_append, join_cons (by simp)]; simp
      rw [show ('\n' :: joinNL (ms' ++ [m])).getLast? = (joinNL (ms' ++ [m])).getLast? from ?_]
      · rw [h1]
        cases hg : m.getLast? with
        | none =>
            rw [List.getLast?_eq_none_iff] at hg
            exact absurd hg hm
        | some x => rfl
      · rw [List.getLast?_cons]
        cases hg2 : (joinNL (ms' ++ [m])).getLast? with
        | none =>
            rw [List.getLast?_eq_none_iff] at hg2
            exact absurd hg2 h2
        | some y => simp [List.getLast?_cons, hg2]

theorem join_head? (m : List Char) (ms : List (List Char)) (hm : m ≠ []) :
    (joinNL (m :: ms)).head? = m.head? := by
  cases ms with
  | nil => rfl
  | cons a as =>
      rw [join_cons (by simp), List.head?_append]
      cases hh : m.head? with
      | none =>
          rw [List.head?_eq_none_iff] at hh
          exact absurd hh hm
      | some x => rfl

theorem filter_getLast {p : List Char → Bool} (ms0 : List (List Char)) (m : List Char)
    (hp : p m = true) :
    List.filter p (ms0 ++ [m]) = List.filter p ms0 ++ [m] := by
  rw [List.filter_append]
  simp [hp]

/-! ## Shared lemmas for cleaning idempotence: the tokenizer -/


theorem breakAtGt_spec : ∀ (l : List Char) (p : List Char × List Char),
    breakAtGt l = some p → l = p.1 ++ '>' :: p.2 := by
  intro l
  induction l with
  | nil => intro p h; simp [breakAtGt] at h
  | cons c t ih =>
      intro p h
      simp only [breakAtGt] at h
      by_cases hc : c == '>'
      · rw [if_pos hc] at h
        injection h with h1
        rw [← h1]
        simp
        exact (beq_iff_eq.mp hc)
      · rw [if_neg hc] at h
        rw [Option.map_eq_some'] at h
        obtain ⟨q, hq, hpq⟩ := h
        rw [← hpq]
        simp
        exact ih q hq

theorem afterCommentEnd_spec : ∀ (l : List Char) (t : List Char),
    afterCommentEnd l = some t → ∃ a, l = a ++ '-' :: '-' :: '>' :: t := by
  intro l
  induction l with
  | nil => intro t h; simp [afterCommentEnd] at h
  | cons c l' ih =>
      intro t h
      rw [afterCommentEnd.eq_def] at h
      split at h
      · next u heq =>
          injection h with h1
          subst h1
          exact ⟨[], heq⟩
      · next c2 t2 hside heq =>
          injection heq with ha hb
          subst ha
          subst hb
          obtain ⟨a, ha2⟩ := ih t h
          exact ⟨c :: a, by rw [ha2]; rfl⟩
      · next heq => exact absurd heq (by simp)

theorem tokenizeF_nil : ∀ f, tokenizeF f [] = [] := by
  intro f
  cases f <;> rfl



theorem tokenizeF_congr : ∀ (N : Nat) (l : List Char), l.length ≤ N →
    ∀ f1 f2, l.length < f1 → l.length < f2 → tokenizeF f1 l = tokenizeF f2 l := by
  intro N
  induction N with
  | zero =>
      intro l hl f1 f2 _ _
      have hnil : l = [] := by
        cases l with
        | nil => rfl
        | cons => simp at hl
      subst hnil
      rw [tokenizeF_nil, tokenizeF_nil]
  | succ N ih =>
      intro l hl f1 f2 h1 h2
      cases l with
      | nil => rw [tokenizeF_nil, tokenizeF_nil]
      | cons c t =>
          cases f1 with
          | zero => simp at h1
          | succ f1' =>
              cases f2 with
              | zero => simp at h2
              | succ f2' =>
                  have hlt : t.length ≤ N := by simp at hl; omega
                  have ht1 : t.length < f1' := by simp at h1; omega
                  have ht2 : t.length < f2' := by simp at h2; omega
                  by_cases hc : c = '<'
                  · cases t with
                    | nil =>
                        simp only [tokenizeF]
                        rw [if_pos hc, if_pos hc]
                    | cons d cs =>
                        simp only [tokenizeF]
                        rw [if_pos hc, if_pos hc]
                        have hcs : cs.length + 1 ≤ N := by simpa using hlt
                        have hcf1 : cs.length + 1 < f1' := by simpa using ht1
                        have hcf2 : cs.length + 1 < f2' := by simpa using ht2
                        by_cases hd : d = '!'
                        · rw [if_pos hd, if_pos hd]
                          by_cases hcc : commentStart cs
                          · rw [if_pos hcc, if_pos hcc]
                            cases hae : afterCommentEnd cs with
                            | some u =>
                                simp only [hae]
                                obtain ⟨a, ha⟩ := afterCommentEnd_spec cs u hae
                                have hu : u.length + 3 ≤ cs.length := by
                                  rw [ha]
                                  simp
                                exact ih u (by omega) f1' f2' (by omega) (by omega)
                            | none =>
                                simp only [hae]
                                rw [ih (d :: cs) (by simpa using hlt) f1' f2' ht1 ht2]
                          · rw [if_neg hcc, if_neg hcc]
                            cases hbg : breakAtGt cs with
                            | some p =>
                                simp only [hbg]
                                have hsp := breakAtGt_spec cs p hbg
                                have hp : p.2.length + 1 ≤ cs.length := by
                                  rw [hsp]
                                  simp
                                exact ih p.2 (by omega) f1' f2' (by omega) (by omega)
                            | none =>
                                simp only [hbg]
                                rw [ih (d :: cs) (by simpa using hlt) f1' f2' ht1 ht2]
                        · rw [if_neg hd, if_neg hd]
                          by_cases hd2 : d = '/'
                          · rw [if_pos hd2, if_pos hd2]
                            cases hbg : breakAtGt cs with
                            | some p =>
                                simp only [hbg]
                                have hsp := breakAtGt_spec cs p hbg
                                have hp : p.2.length + 1 ≤ cs.length := by
                                  rw [hsp]
                                  simp
                                cases hnm : (p.1.dropWhile isSpaceC).takeWhile isNameC with
                                | nil =>
                                    simp only [hnm]
                                    exact ih p.2 (by omega) f1' f2' (by omega) (by omega)
                                | cons e nm =>
                                    simp only [hnm]
                                    by_cases he : e.isAlpha
                                    · rw [if_pos he, if_pos he]
                                      rw [ih p.2 (by omega) f1' f2' (by omega) (by omega)]
                                    · rw [if_neg he, if_neg he]
                                      exact ih p.2 (by omega) f1' f2' (by omega) (by omega)
                            | none =>
                                simp only [hbg]
                                rw [ih (d :: cs) (by simpa using hlt) f1' f2' ht1 ht2]
                          · rw [if_neg hd2, if_neg hd2]
                            by_cases he : d.isAlpha
                            · rw [if_pos he, if_pos he]
                              cases hbg : breakAtGt (d :: cs) with
                              | some p =>
                                  simp only [hbg]
                                  have hsp := breakAtGt_spec (d :: cs) p hbg
                                  have hp : p.2.length + 1 ≤ cs.length + 1 := by
                                    have := congrArg List.length hsp
                                    simp at this
                                    omega
                                  rw [ih p.2 (by omega) f1' f2' (by omega) (by omega)]
                              | none =>
                                  simp only [hbg]
                                  rw [ih (d :: cs) (by simpa using hlt) f1' f2' ht1 ht2]
                            · rw [if_neg he, if_neg he]
                              rw [ih (d :: cs) (by simpa using hlt) f1' f2' ht1 ht2]
                  · simp only [tokenizeF]
                    rw [if_neg hc, if_neg hc]
                    have hdrop : (t.dropWhile (fun x => x != '<')).length ≤ t.length := by
                      have hh := congrArg List.length
                        (List.takeWhile_append_dropWhile (fun x => x != '<') t)
                      rw [List.length_append] at hh
                      omega
                    rw [ih (t.dropWhile (fun x => x != '<')) (by omega) f1' f2'
                      (by omega) (by omega)]

theorem tokenize_eq_tokenizeF {l : List Char} {f : Nat} (hf : l.length < f) :
    tokenize l = tokenizeF f l :=
  tokenizeF_congr l.length l le_rfl (l.length + 1) f (by omega) hf

theorem tokenize_nil : tokenize [] = [] := rfl

theorem tokenize_mark {b : List Char} (hb : b = [] ∨ ∃ b', b = '\n' :: b') :
    tokenize ('<' :: b) = Tok.text ['<'] :: tokenize b := by
  rcases hb with rfl | ⟨b', rfl⟩
  · rfl
  · have h1 : tokenize ('<' :: '\n' :: b') =
        Tok.text ['<'] :: tokenizeF (b'.length + 2) ('\n' :: b') := rfl
    rw [h1, ← tokenize_eq_tokenizeF (by simp)]

theorem tokenize_run {a b : List Char} (ha : ∀ c ∈ a, c ≠ '<') (hne : a ≠ [])
    (hb : b = [] ∨ ∃ b', b = '<' :: b') :
    tokenize (a ++ b) = Tok.text (decodeRefs a) :: tokenize b := by
  cases a with
  | nil => exact absurd rfl hne
  | cons c a' =>
      have hc : c ≠ '<' := ha c (by simp)
      show tokenizeF ((c :: a' ++ b).length + 1) (c :: (a' ++ b)) = _
      simp only [tokenizeF]
      rw [if_neg hc]
      have htake : (a' ++ b).takeWhile (fun x => x != '<') = a' := by
        rw [List.takeWhile_append_of_pos
          (by intro x hx; simpa using ha x (List.mem_cons_of_mem c hx))]
        rcases hb with rfl | ⟨b', rfl⟩
        · simp
        · rw [List.takeWhile_cons]
          simp
      have hdrop : (a' ++ b).dropWhile (fun x => x != '<') = b := by
        rw [List.dropWhile_append_of_pos
          (by intro x hx; simpa using ha x (List.mem_cons_of_mem c hx))]
        rcases hb with rfl | ⟨b', rfl⟩
        · simp
        · rw [List.dropWhile_cons]
          simp
      rw [htake, hdrop]
      rw [← tokenize_eq_tokenizeF]
      have hh := congrArg List.length (List.takeWhile_append_dropWhile
        (fun x => x != '<') (a' ++ b))
      rw [List.length_append] at hh
      rw [hdrop] at hh
      simp
      omega

theorem noRefs_suffix {l s : List Char} (h : noRefs l = true) (hs : s <:+ l) :
    noRefs s = true :=
  noRefs_infix h hs.isInfix

theorem tokenizeF_text_fragOk : ∀ (N : Nat) (l : List Char), l.length ≤ N →
    noRefs l = true → ∀ f s, Tok.text s ∈ tokenizeF f l → fragOk s = true := by
  intro N
  induction N with
  | zero =>
      intro l hl _ f s hmem
      have hnil : l = [] := by
        cases l with
        | nil => rfl
        | cons => simp at hl
      subst hnil
      rw [tokenizeF_nil] at hmem
      simp at hmem
  | succ N ih =>
      intro l hl href f s hmem
      cases l with
      | nil =>
          rw [tokenizeF_nil] at hmem
          simp at hmem
      | cons c t =>
          cases f with
          | zero => simp [tokenizeF] at hmem
          | succ f' =>
              have hlt : t.length ≤ N := by simp at hl; omega
              have hreft : noRefs t = true := (noRefs_cons.mp href).2
              by_cases hc : c = '<'
              · cases t with
                | nil =>
                    simp only [tokenizeF, if_pos hc] at hmem
                    simp at hmem
                    subst hmem
                    decide
                | cons d cs =>
                    have hcs : cs.length + 1 ≤ N := by simpa using hlt
                    have hrefcs : noRefs cs = true := (noRefs_cons.mp hreft).2
                    simp only [tokenizeF, if_pos hc] at hmem
                    by_cases hd : d = '!'
                    · rw [if_pos hd] at hmem
                      by_cases hcc : commentStart cs
                      · rw [if_pos hcc] at hmem
                        cases hae : afterCommentEnd cs with
                        | some u =>
                            simp only [hae] at hmem
                            obtain ⟨a, ha⟩ := afterCommentEnd_spec cs u hae
                            have hu : u.length + 3 ≤ cs.length := by
                              rw [ha]
                              simp
                            exact ih u (by omega)
                              (noRefs_suffix hrefcs ⟨a ++ ['-', '-', '>'], by simp [ha]⟩)
                              f' s hmem
                        | none =>
                            simp only [hae] at hmem
                            rcases List.mem_cons.mp hmem with heq | hmem2
                            · injection heq with h1
                              subst h1
                              decide
                            · exact ih (d :: cs) (by simpa using hlt) hreft f' s hmem2
                      · rw [if_neg hcc] at hmem
                        cases hbg : breakAtGt cs with
                        | some p =>
                            simp only [hbg] at hmem
                            have hsp := breakAtGt_spec cs p hbg
                            have hp : p.2.length + 1 ≤ cs.length := by
                              rw [hsp]
                              simp
                            exact ih p.2 (by omega)
                              (noRefs_suffix hrefcs ⟨p.1 ++ ['>'], by simp [hsp]⟩)
                              f' s hmem
                        | none =>
                            simp only [hbg] at hmem
                            rcases List.mem_cons.mp hmem with heq | hmem2
                            · injection heq with h1
                              subst h1
                              decide
                            · exact ih (d :: cs) (by simpa using hlt) hreft f' s hmem2
                    · rw [if_neg hd] at hmem
                      by_cases hd2 : d = '/'
                      · rw [if_pos hd2] at hmem
                        cases hbg : breakAtGt cs with
                        | some p =>
                            simp only [hbg] at hmem
                            have hsp := breakAtGt_spec cs p hbg
                            have hp : p.2.length + 1 ≤ cs.length := by
                              rw [hsp]
                              simp
                            have hrefp : noRefs p.2 = true :=
                              noRefs_suffix hrefcs ⟨p.1 ++ ['>'], by simp [hsp]⟩
                            cases hnm : (p.1.dropWhile isSpaceC).takeWhile isNameC with
                            | nil =>
                                simp only [hnm] at hmem
                                exact ih p.2 (by omega) hrefp f' s hmem
                            | cons e nm =>
                                simp only [hnm] at hmem
                                by_cases he : e.isAlpha
                                · rw [if_pos he] at hmem
                                  rcases List.mem_cons.mp hmem with heq | hmem2
                                  · exact absurd heq (by simp)
                                  · exact ih p.2 (by omega) hrefp f' s hmem2
                                · rw [if_neg he] at hmem
                                  exact ih p.2 (by omega) hrefp f' s hmem
                        | none =>
                            simp only [hbg] at hmem
                            rcases List.mem_cons.mp hmem with heq | hmem2
                            · injection heq with h1
                              subst h1
                              decide
                            · exact ih (d :: cs) (by simpa using hlt) hreft f' s hmem2
                      · rw [if_neg hd2] at hmem
                        by_cases he : d.isAlpha
                        · rw [if_pos he] at hmem
                          cases hbg : breakAtGt (d :: cs) with
                          | some p =>
                              simp only [hbg] at hmem
                              have hsp := breakAtGt_spec (d :: cs) p hbg
                              have hp : p.2.length + 1 ≤ cs.length + 1 := by
                                have hlen := congrArg List.length hsp
                                simp at hlen
                                omega
                              rcases List.mem_cons.mp hmem with heq | hmem2
                              · exact absurd heq (by simp)
                              · exact ih p.2 (by omega)
                                  (noRefs_suffix hreft ⟨p.1 ++ ['>'], by simp [hsp]⟩)
                                  f' s hmem2
                          | none =>
                              simp only [hbg] at hmem
                              rcases List.mem_cons.mp hmem with heq | hmem2
                              · injection heq with h1
                                subst h1
                                decide
                              · exact ih (d :: cs) (by simpa using hlt) hreft f' s hmem2
                        · rw [if_neg he] at hmem
                          rcases List.mem_cons.mp hmem with heq | hmem2
                          · injection heq with h1
                            subst h1
                            decide
                          · exact ih (d :: cs) (by simpa using hlt) hreft f' s hmem2
              · simp only [tokenizeF, if_neg hc] at hmem
                rcases List.mem_cons.mp hmem with heq | hmem2
                · injection heq with h1
                  subst h1
                  have hpre : (c :: t.takeWhile (fun x => x != '<')) <+: (c :: t) :=
                    List.cons_prefix_cons.mpr ⟨rfl, List.takeWhile_prefix _⟩
                  have hrun : noRefs (c :: t.takeWhile (fun x => x != '<')) = true :=
                    noRefs_infix href hpre.isInfix
                  rw [decodeRefs_noRefs _ hrun]
                  have hnotin : '<' ∉ (c :: t.takeWhile (fun x => x != '<')) := by
                    intro hin
                    rcases List.mem_cons.mp hin with heq2 | hin2
                    · exact hc heq2.symm
                    · have hpr := List.mem_takeWhile_imp hin2
                      simp at hpr
                  simp only [fragOk, Bool.or_eq_true, Bool.and_eq_true,
                    Bool.not_eq_true']
                  left
                  refine ⟨⟨?_, by simp⟩, hrun⟩
                  simpa using hnotin
                · have hdrop : (t.dropWhile (fun x => x != '<')).length ≤ t.length := by
                    have hh := congrArg List.length (List.takeWhile_append_dropWhile
                      (fun x => x != '<') t)
                    rw [List.length_append] at hh
                    omega
                  exact ih (t.dropWhile (fun x => x != '<')) (by omega)
                    (noRefs_suffix hreft (List.dropWhile_suffix _))
                    f' s hmem2

theorem tokenize_text_fragOk {l : List Char} (href : noRefs l = true)
    {s : List Char} (hmem : Tok.text s ∈ tokenize l) : fragOk s = true :=
  tokenizeF_text_fragOk l.length l le_rfl href (l.length + 1) s hmem

theorem getTextL_eq_gtL (ns : NodeList) : getTextL ns = gtL (fragsNL ns) := rfl

theorem fragsNL_toNL : ∀ ns : List Node, fragsNL (toNL ns) = fragsL ns := by
  intro ns
  induction ns with
  | nil => rfl
  | cons n ns' ih =>
      cases n with
      | txt s => simp [toNL, fragsNL, fragsL, ih]
      | elem nm a cs => simp [toNL, fragsNL, fragsL, ih]

theorem fragsL_append : ∀ A B : List Node, fragsL (A ++ B) = fragsL A ++ fragsL B := by
  intro A B
  induction A with
  | nil => rfl
  | cons n A' ih =>
      cases n with
      | txt s => simp [fragsL, ih]
      | elem nm a cs => simp [fragsL, ih]

theorem fragsL_reverse_mem {s : List Char} : ∀ {ns : List Node},
    s ∈ fragsL ns.reverse → s ∈ fragsL ns := by
  intro ns
  induction ns with
  | nil => intro h; exact h
  | cons n ns' ih =>
      intro h
      rw [List.reverse_cons, fragsL_append] at h
      rcases List.mem_append.mp h with h1 | h2
      · cases n with
        | txt t =>
            simp [fragsL]
            right
            exact ih h1
        | elem nm a cs =>
            simp [fragsL]
            right
            exact ih h1
      · cases n with
        | txt t =>
            simp only [fragsL] at h2 ⊢
            rcases List.mem_cons.mp h2 with h3 | h3
            · exact List.mem_cons.mpr (Or.inl h3)
            · simp [fragsL] at h3
        | elem nm a cs =>
            simp only [fragsL] at h2 ⊢
            rw [List.mem_append]
            left
            simpa [fragsL] using h2

theorem closeAll_frags {s : List Char} : ∀ (fs : List Frame) (f : Frame)
    (acc : List Node), s ∈ fragsL (closeAll f fs acc) →
    s ∈ fragsL f.children ∨ (∃ g ∈ fs, s ∈ fragsL g.children) ∨ s ∈ fragsL acc := by
  intro fs
  induction fs with
  | nil =>
      intro f acc h
      simp only [closeAll, fragsL] at h
      rcases List.mem_append.mp h with h1 | h2
      · rw [fragsNL_toNL] at h1
        exact Or.inl (fragsL_reverse_mem h1)
      · exact Or.inr (Or.inr h2)
  | cons g gs ih =>
      intro f acc h
      simp only [closeAll] at h
      rcases ih _ _ h with h1 | ⟨g2, hg2, hs⟩ | h3
      · simp only [fragsL] at h1
        rcases List.mem_append.mp h1 with ha | hb
        · rw [fragsNL_toNL] at ha
          exact Or.inl (fragsL_reverse_mem ha)
        · exact Or.inr (Or.inl ⟨g, by simp, hb⟩)
      · exact Or.inr (Or.inl ⟨g2, by simp [hg2], hs⟩)
      · exact Or.inr (Or.inr h3)

theorem popTo_frags {s : List Char} (nm : List Char) : ∀ (fs : List Frame) (f : Frame)
    (acc : List Node),
    (s ∈ fragsL (popTo nm f fs acc).1 ∨
      ∃ g ∈ (popTo nm f fs acc).2, s ∈ fragsL g.children) →
    s ∈ fragsL f.children ∨ (∃ g ∈ fs, s ∈ fragsL g.children) ∨ s ∈ fragsL acc := by
  intro fs
  induction fs with
  | nil =>
      intro f acc h
      rcases h with h1 | ⟨g, hg, _⟩
      · simp only [popTo, fragsL] at h1
        rcases List.mem_append.mp h1 with ha | hb
        · rw [fragsNL_toNL] at ha
          exact Or.inl (fragsL_reverse_mem ha)
        · exact Or.inr (Or.inr hb)
      · simp [popTo] at hg
  | cons g gs ih =>
      intro f acc h
      simp only [popTo] at h
      by_cases he : f.name == nm
      · rw [if_pos he] at h
        rcases h with h1 | ⟨g2, hg2, hs⟩
        · exact Or.inr (Or.inr h1)
        · rcases List.mem_cons.mp hg2 with rfl | hg3
          · simp only [fragsL] at hs
            rcases List.mem_append.mp hs with ha | hb
            · rw [fragsNL_toNL] at ha
              exact Or.inl (fragsL_reverse_mem ha)
            · exact Or.inr (Or.inl ⟨g, by simp, hb⟩)
          · exact Or.inr (Or.inl ⟨g2, by simp [hg3], hs⟩)
      · rw [if_neg he] at h
        rcases ih _ _ h with h1 | ⟨g2, hg2, hs⟩ | h3
        · simp only [fragsL] at h1
          rcases List.mem_append.mp h1 with ha | hb
          · rw [fragsNL_toNL] at ha
            exact Or.inl (fragsL_reverse_mem ha)
          · exact Or.inr (Or.inl ⟨g, by simp, hb⟩)
        · exact Or.inr (Or.inl ⟨g2, by simp [hg2], hs⟩)
        · exact Or.inr (Or.inr h3)

theorem buildGo_frags {s : List Char} : ∀ (ts : List Tok) (acc : List Node)
    (stack : List Frame), s ∈ fragsL (buildGo ts acc stack) →
    Tok.text s ∈ ts ∨ s ∈ fragsL acc ∨ ∃ g ∈ stack, s ∈ fragsL g.children := by
  intro ts
  induction ts with
  | nil =>
      intro acc stack h
      cases stack with
      | nil =>
          simp only [buildGo] at h
          exact Or.inr (Or.inl (fragsL_reverse_mem h))
      | cons f fs =>
          simp only [buildGo] at h
          rcases closeAll_frags fs f acc (fragsL_reverse_mem h) with h1 | ⟨g, hg, hs⟩ | h3
          · exact Or.inr (Or.inr ⟨f, by simp, h1⟩)
          · exact Or.inr (Or.inr ⟨g, by simp [hg], hs⟩)
          · exact Or.inr (Or.inl h3)
  | cons t ts' ih =>
      intro acc stack h
      cases t with
      | text u =>
          cases stack with
          | nil =>
              simp only [buildGo] at h
              rcases ih _ _ h with h1 | h2 | ⟨g, hg, hs⟩
              · exact Or.inl (List.mem_cons_of_mem _ h1)
              · simp only [fragsL] at h2
                rcases List.mem_cons.mp h2 with rfl | h3
                · exact Or.inl (by simp)
                · exact Or.inr (Or.inl h3)
              · simp at hg
          | cons f fs =>
              simp only [buildGo] at h
              rcases ih _ _ h with h1 | h2 | ⟨g, hg, hs⟩
              · exact Or.inl (List.mem_cons_of_mem _ h1)
              · exact Or.inr (Or.inl h2)
              · rcases List.mem_cons.mp hg with rfl | hg2
                · simp only [fragsL] at hs
                  rcases List.mem_cons.mp hs with rfl | h4
                  · exact Or.inl (by simp)
                  · exact Or.inr (Or.inr ⟨f, by simp, h4⟩)
                · exact Or.inr (Or.inr ⟨g, by simp [hg2], hs⟩)
      | openT nm a sc =>
          simp only [buildGo] at h
          by_cases hv : (sc || voidTags.contains nm) = true
          · rw [if_pos hv] at h
            cases stack with
            | nil =>
                rcases ih _ _ h with h1 | h2 | ⟨g, hg, hs⟩
                · exact Or.inl (List.mem_cons_of_mem _ h1)
                · simp only [fragsL] at h2
                  rcases List.mem_append.mp h2 with ha | hb
                  · simp [fragsNL] at ha
                  · exact Or.inr (Or.inl hb)
                · simp at hg
            | cons f fs =>
                rcases ih _ _ h with h1 | h2 | ⟨g, hg, hs⟩
                · exact Or.inl (List.mem_cons_of_mem _ h1)
                · exact Or.inr (Or.inl h2)
                · rcases List.mem_cons.mp hg with rfl | hg2
                  · simp only [fragsL] at hs
                    rcases List.mem_append.mp hs with ha | hb
                    · simp [fragsNL] at ha
                    · exact Or.inr (Or.inr ⟨f, by simp, hb⟩)
                  · exact Or.inr (Or.inr ⟨g, by simp [hg2], hs⟩)
          · rw [if_neg hv] at h
            rcases ih _ _ h with h1 | h2 | ⟨g, hg, hs⟩
            · exact Or.inl (List.mem_cons_of_mem _ h1)
            · exact Or.inr (Or.inl h2)
            · rcases List.mem_cons.mp hg with rfl | hg2
              · simp [fragsL] at hs
              · exact Or.inr (Or.inr ⟨g, by simp [hg2], hs⟩)
      | closeT nm =>
          cases stack with
          | nil =>
              simp only [buildGo] at h
              rcases ih _ _ h with h1 | h2 | ⟨g, hg, hs⟩
              · exact Or.inl (List.mem_cons_of_mem _ h1)
              · exact Or.inr (Or.inl h2)
              · simp at hg
          | cons f fs =>
              simp only [buildGo] at h
              by_cases ha : (f :: fs).any (fun fr => fr.name == nm) = true
              · rw [if_pos ha] at h
                rcases ih _ _ h with h1 | h2 | hex
                · exact Or.inl (List.mem_cons_of_mem _ h1)
                · rcases popTo_frags nm fs f acc (Or.inl h2) with p1 | ⟨g, hg, hs⟩ | p3
                  · exact Or.inr (Or.inr ⟨f, by simp, p1⟩)
                  · exact Or.inr (Or.inr ⟨g, by simp [hg], hs⟩)
                  · exact Or.inr (Or.inl p3)
                · rcases popTo_frags nm fs f acc (Or.inr hex) with p1 | ⟨g, hg, hs⟩ | p3
                  · exact Or.inr (Or.inr ⟨f, by simp, p1⟩)
                  · exact Or.inr (Or.inr ⟨g, by simp [hg], hs⟩)
                  · exact Or.inr (Or.inl p3)
              · rw [if_neg ha] at h
                rcases ih _ _ h with h1 | h2 | ⟨g, hg, hs⟩
                · exact Or.inl (List.mem_cons_of_mem _ h1)
                · exact Or.inr (Or.inl h2)
                · exact Or.inr (Or.inr ⟨g, hg, hs⟩)

theorem parseNodes_frags {s : List Char} {l : List Char}
    (h : s ∈ fragsNL (parseNodes l)) : Tok.text s ∈ tokenize l := by
  unfold parseNodes at h
  rw [fragsNL_toNL] at h
  rcases buildGo_frags (tokenize l) [] [] h with h1 | h2 | ⟨g, hg, _⟩
  · exact h1
  · simp [fragsL] at h2
  · simp at hg

theorem allowedFrags_sub : ∀ (S : Nat) (ns : NodeList), sizeNL ns ≤ S →
    ∀ s ∈ allowedFragsNL ns, s ∈ fragsNL ns := by
  intro S
  induction S with
  | zero =>
      intro ns hs s hmem
      cases ns with
      | nil => simp [allowedFragsNL] at hmem
      | cons n ns' =>
          exfalso
          have := sizeN_pos n
          simp [sizeNL] at hs
          omega
  | succ S ih =>
      intro ns hs s hmem
      cases ns with
      | nil => simp [allowedFragsNL] at hmem
      | cons n ns' =>
          cases n with
          | txt t =>
              simp only [allowedFragsNL] at hmem
              simp only [fragsNL]
              rcases List.mem_cons.mp hmem with h1 | h2
              · exact List.mem_cons.mpr (Or.inl h1)
              · have hsz : sizeNL ns' ≤ S := by
                  simp [sizeNL, sizeN] at hs
                  omega
                exact List.mem_cons.mpr (Or.inr (ih ns' hsz s h2))
          | elem nm a cs =>
              simp only [allowedFragsNL] at hmem
              simp only [fragsNL]
              have hsz1 : sizeNL cs ≤ S := by
                simp [sizeNL, sizeN] at hs
                omega
              have hsz2 : sizeNL ns' ≤ S := by
                have := sizeN_pos (Node.elem nm a cs)
                simp [sizeNL] at hs
                omega
              rcases List.mem_append.mp hmem with h1 | h2
              · by_cases hd : denyTags.contains nm = true
                · rw [if_pos hd] at h1
                  simp at h1
                · rw [if_neg hd] at h1
                  exact List.mem_append.mpr (Or.inl (ih cs hsz1 s h1))
              · exact List.mem_append.mpr (Or.inr (ih ns' hsz2 s h2))

theorem clean_frags_fragOk {l : List Char} (href : noRefs l = true) :
    ∀ s ∈ fragsNL (removeDenyList (parseNodes l)), fragOk s = true := by
  intro s hmem
  rw [frags_removeDeny] at hmem
  have h2 : s ∈ fragsNL (parseNodes l) :=
    allowedFrags_sub (sizeNL (parseNodes l)) (parseNodes l) le_rfl s hmem
  exact tokenize_text_fragOk href (parseNodes_frags h2)

theorem buildGo_texts : ∀ (ps : List (List Char)) (acc : List Node),
    buildGo (ps.map Tok.text) acc [] = acc.reverse ++ ps.map Node.txt := by
  intro ps
  induction ps with
  | nil => intro acc; simp [buildGo]
  | cons p ps' ih =>
      intro acc
      simp only [List.map_cons, buildGo]
      rw [ih (Node.txt p :: acc)]
      simp

theorem removeDeny_txts : ∀ ps : List (List Char),
    removeDenyList (toNL (ps.map Node.txt)) = toNL (ps.map Node.txt) := by
  intro ps
  induction ps with
  | nil => rfl
  | cons p ps' ih => simp only [List.map_cons, toNL, removeDenyList, ih]

theorem fragsNL_txts : ∀ ps : List (List Char),
    fragsNL (toNL (ps.map Node.txt)) = ps := by
  intro ps
  induction ps with
  | nil => rfl
  | cons p ps' ih => simp only [List.map_cons, toNL, fragsNL, ih]

theorem gtv_texts {y : List Char} {ps : List (List Char)}
    (h : tokenize y = ps.map Tok.text) :
    getTextL (removeDenyList (parseNodes y)) = gtL ps := by
  unfold parseNodes
  rw [h, buildGo_texts ps []]
  simp only [List.reverse_nil, List.nil_append]
  rw [removeDeny_txts, getTextL_eq_gtL, fragsNL_txts]

theorem CS_ne_nil {b : Bool} {y : List Char} (h : CS b y) : y ≠ [] := by
  cases h with
  | mark1 => simp
  | markCons b rest _ => simp
  | pure1 t hp =>
      simp only [pureOk, Bool.and_eq_true, Bool.not_eq_true'] at hp
      intro he
      rw [he] at hp
      simp at hp
  | pureCons t rest hp _ =>
      simp only [pureOk, Bool.and_eq_true, Bool.not_eq_true'] at hp
      intro he
      rcases List.append_eq_nil.mp he with ⟨_, h2⟩
      exact List.cons_ne_nil _ _ h2

theorem CS_false_head {y : List Char} (h : CS false y) : ∃ y', y = '<' :: y' := by
  cases h with
  | mark1 => exact ⟨[], rfl⟩
  | markCons b rest _ => exact ⟨'\n' :: rest, rfl⟩

theorem refAtHead_nl (y : List Char) : refAtHead ('\n' :: y) = false := by
  simp [refAtHead, refPats, leadsWith]

theorem noRefs_cons_nl {y : List Char} (h : noRefs y = true) :
    noRefs ('\n' :: y) = true := by
  rw [noRefs]
  simp [refAtHead_nl, h]

theorem gtL_nil : gtL [] = [] := rfl

theorem gtL_cons_blank {p : List Char} (hp : stripL p = []) (ps : List (List Char)) :
    gtL (p :: ps) = gtL ps := by
  unfold gtL
  rw [List.map_cons, List.filter_cons_of_neg (by simp [hp])]

theorem gtL_filtered_ne {ps : List (List Char)} (h : gtL ps ≠ []) :
    (ps.map stripL).filter (fun m => m != []) ≠ [] := by
  intro hL
  unfold gtL at h
  rw [hL] at h
  exact h rfl

theorem gtL_cons_ne {p : List Char} {ps : List (List Char)} (hp : stripL p ≠ [])
    (hps : gtL ps ≠ []) : gtL (p :: ps) = stripL p ++ '\n' :: gtL ps := by
  unfold gtL
  rw [List.map_cons, List.filter_cons_of_pos (by simp [hp])]
  exact join_cons (gtL_filtered_ne hps) _

theorem gtL_single {p : List Char} (hp : stripL p ≠ []) : gtL [p] = stripL p := by
  unfold gtL
  rw [List.map_cons, List.filter_cons_of_pos (by simp [hp])]
  rfl

theorem pureOk_parts {t : List Char} (hp : pureOk t = true) :
    t.contains '<' = false ∧ noRefs t = true ∧ stripL t = t ∧ t ≠ [] ∧
      onlyNL t = true ∧ (splitLinesL t).all (fun m => stripL m != []) = true := by
  simp only [pureOk, Bool.and_eq_true, Bool.not_eq_true'] at hp
  obtain ⟨⟨⟨⟨⟨h1, h2⟩, h3⟩, h4⟩, h5⟩, h6⟩ := hp
  refine ⟨h1, h2, by simpa using h3, by simpa using h4, h5, h6⟩

theorem contains_false_ne {t : List Char} (h : t.contains '<' = false) :
    ∀ c ∈ t, c ≠ '<' := by
  intro c hc he
  have hm : '<' ∈ t := he ▸ hc
  have h2 : t.contains '<' = true := by simpa using hm
  rw [h2] at h
  exact Bool.noConfusion h

theorem CS_tokens {b : Bool} {y : List Char} (h : CS b y) :
    ∃ ps qs : List (List Char), tokenize y = ps.map Tok.text ∧ gtL ps = y ∧
      tokenize ('\n' :: y) = qs.map Tok.text ∧ gtL qs = y := by
  induction h with
  | mark1 =>
      refine ⟨[['<']], [['\n'], ['<']], rfl, by decide, rfl, by decide⟩
  | markCons b rest hcs ih =>
      obtain ⟨ps, qs, h1, h2, h3, h4⟩ := ih
      have hne : rest ≠ [] := CS_ne_nil hcs
      have hq : gtL qs ≠ [] := by rw [h4]; exact hne
      have ht : tokenize ('<' :: '\n' :: rest) = Tok.text ['<'] :: tokenize ('\n' :: rest) :=
        tokenize_mark (Or.inr ⟨rest, rfl⟩)
      have ht2 : tokenize (['\n'] ++ '<' :: '\n' :: rest) =
          Tok.text (decodeRefs ['\n']) :: tokenize ('<' :: '\n' :: rest) :=
        tokenize_run (by intro c hc; simp at hc; subst hc; decide) (by simp)
          (Or.inr ⟨'\n' :: rest, rfl⟩)
      refine ⟨['<'] :: qs, ['\n'] :: ['<'] :: qs, ?_, ?_, ?_, ?_⟩
      · rw [ht, h3, List.map_cons]
      · rw [gtL_cons_ne (by decide) hq, h4]
        rfl
      · rw [List.singleton_append] at ht2
        rw [ht2, ht, h3, List.map_cons, List.map_cons]
        rfl
      · rw [gtL_cons_blank (by decide), gtL_cons_ne (by decide) hq, h4]
        rfl
  | pure1 t hp =>
      obtain ⟨hcont, href, hstrip, hne, _, _⟩ := pureOk_parts hp
      have hrun : tokenize (t ++ []) = Tok.text (decodeRefs t) :: tokenize [] :=
        tokenize_run (contains_false_ne hcont) hne (Or.inl rfl)
      rw [List.append_nil, tokenize_nil] at hrun
      have hrefnl : noRefs ('\n' :: t) = true := noRefs_cons_nl href
      have hrun2 : tokenize (('\n' :: t) ++ []) =
          Tok.text (decodeRefs ('\n' :: t)) :: tokenize [] :=
        tokenize_run
          (by
            intro c hc
            rcases List.mem_cons.mp hc with rfl | hc2
            · decide
            · exact contains_false_ne hcont c hc2)
          (by simp) (Or.inl rfl)
      rw [List.append_nil, tokenize_nil] at hrun2
      have hs2 : stripL ('\n' :: t) = t := by
        rw [stripL_cons_space (by decide), hstrip]
      refine ⟨[t], ['\n' :: t], ?_, ?_, ?_, ?_⟩
      · rw [hrun, decodeRefs_noRefs t href]
        rfl
      · rw [gtL_single (by rw [hstrip]; exact hne), hstrip]
      · rw [hrun2, decodeRefs_noRefs _ hrefnl]
        rfl
      · rw [gtL_single (by rw [hs2]; exact hne), hs2]
  | pureCons t rest hp hcs ih =>
      obtain ⟨ps, qs, h1, h2, h3, h4⟩ := ih
      obtain ⟨hcont, href, hstrip, hne, _, _⟩ := pureOk_parts hp
      obtain ⟨r', hr'⟩ := CS_false_head hcs
      have hps : gtL ps ≠ [] := by rw [h2]; exact CS_ne_nil hcs
      have hanl : ∀ c ∈ t ++ ['\n'], c ≠ '<' := by
        intro c hc
        rcases List.mem_append.mp hc with hc1 | hc2
        · exact contains_false_ne hcont c hc1
        · simp at hc2
          subst hc2
          decide
      have hrefa : noRefs (t ++ ['\n']) = true := noRefs_append_nl href rfl
      have hsa : stripL (t ++ ['\n']) = t := by
        rw [stripL_append_space (by decide), hstrip]
      have hrun : tokenize ((t ++ ['\n']) ++ rest) =
          Tok.text (decodeRefs (t ++ ['\n'])) :: tokenize rest :=
        tokenize_run hanl (by simp) (Or.inr ⟨r', hr'⟩)
      have heq : (t ++ ['\n']) ++ rest = t ++ '\n' :: rest := by
        rw [List.append_assoc]
        rfl
      have hrefa2 : noRefs (('\n' :: t) ++ ['\n']) = true :=
        noRefs_append_nl (noRefs_cons_nl href) rfl
      have hsa2 : stripL (('\n' :: t) ++ ['\n']) = t := by
        rw [stripL_append_space (by decide), stripL_cons_space (by decide), hstrip]
      have hrun2 : tokenize ((('\n' :: t) ++ ['\n']) ++ rest) =
          Tok.text (decodeRefs (('\n' :: t) ++ ['\n'])) :: tokenize rest :=
        tokenize_run
          (by
            intro c hc
            have hc2 : c = '\n' ∨ c ∈ t ∨ c = '\n' := by simpa using hc
            rcases hc2 with rfl | hc3 | rfl
            · decide
            · exact contains_false_ne hcont c hc3
            · decide)
          (by simp) (Or.inr ⟨r', hr'⟩)
      have heq2 : (('\n' :: t) ++ ['\n']) ++ rest = '\n' :: (t ++ '\n' :: rest) := by
        simp
      refine ⟨(t ++ ['\n']) :: ps, (('\n' :: t) ++ ['\n']) :: ps, ?_, ?_, ?_, ?_⟩
      · rw [← heq, hrun, decodeRefs_noRefs _ hrefa, h1, List.map_cons]
      · rw [gtL_cons_ne (by rw [hsa]; exact hne) hps, hsa, h2]
      · rw [← heq2, hrun2, decodeRefs_noRefs _ hrefa2, h1, List.map_cons]
      · rw [gtL_cons_ne (by rw [hsa2]; exact hne) hps, hsa2, h2]

theorem stripL_self_head {l : List Char} (h : stripL l = l) :
    ∀ c, l.head? = some c → isSpaceC c = false := by
  intro c hc
  by_contra hsp
  rw [Bool.not_eq_false] at hsp
  cases l with
  | nil => simp at hc
  | cons a l' =>
      simp only [List.head?_cons, Option.some.injEq] at hc
      subst hc
      rw [stripL_cons_space hsp] at h
      have hle : (stripL l').length ≤ l'.length := ( stripL_infix l').sublist.length_le
      rw [h] at hle
      simp at hle

theorem stripL_self_last {l : List Char} (h : stripL l = l) :
    ∀ c, l.getLast? = some c → isSpaceC c = false := by
  intro c hc
  by_contra hsp
  rw [Bool.not_eq_false] at hsp
  rw [← List.head?_reverse] at hc
  cases hr : l.reverse with
  | nil =>
      rw [hr] at hc
      simp at hc
  | cons a r0 =>
      rw [hr] at hc
      simp only [List.head?_cons, Option.some.injEq] at hc
      have hl : l = r0.reverse ++ [c] := by
        have h2 := congrArg List.reverse hr
        rw [List.reverse_reverse] at h2
        rw [h2, hc]
        simp
      rw [hl, stripL_append_space hsp] at h
      have hle : (stripL r0.reverse).length ≤ r0.reverse.length :=
        ( stripL_infix r0.reverse).sublist.length_le
      rw [h] at hle
      simp at hle

theorem breakC_isSpace {c : Char} (h : isBreakC c = true) : isSpaceC c = true := by
  have h2 : ((c = '\n' ∨ c = '\r') ∨ c = '\x0b') ∨ c = '\x0c' := by
    simpa [isBreakC] using h
  rcases h2 with ((rfl | rfl) | rfl) | rfl <;> rfl

theorem nonSpace_ne_nl {c : Char} (h : isSpaceC c = false) : c ≠ '\n' := by
  intro he
  subst he
  exact Bool.noConfusion h

theorem CS_lines {b : Bool} {y : List Char} (h : CS b y) :
    onlyNL y = true ∧ (splitLinesL y).all (fun m => stripL m != []) = true ∧
      ∀ c, y.getLast? = some c → c ≠ '\n' := by
  induction h with
  | mark1 =>
      refine ⟨by decide, by decide, ?_⟩
      intro c hc
      simp only [List.getLast?_singleton, Option.some.injEq] at hc
      subst hc
      decide
  | markCons b rest hcs ih =>
      obtain ⟨ho, ha, hl⟩ := ih
      have hne : rest ≠ [] := CS_ne_nil hcs
      have hsl : splitLinesL ('<' :: '\n' :: rest) = ['<'] :: splitLinesL rest := by
        rw [SL_cons (by decide), SL_cons_break (by decide) (by decide)]
      refine ⟨?_, ?_, ?_⟩
      · unfold onlyNL at ho ⊢
        rw [List.all_cons, List.all_cons, ho]
        decide
      · rw [hsl, List.all_cons, ha]
        decide
      · intro c hc
        cases rest with
        | nil => exact absurd rfl hne
        | cons r0 rs =>
            rw [List.getLast?_cons_cons, List.getLast?_cons_cons] at hc
            exact hl c hc
  | pure1 t hp =>
      obtain ⟨_, _, hstrip, _, ho, ha⟩ := pureOk_parts hp
      exact ⟨ho, ha, fun c hc => nonSpace_ne_nl (stripL_self_last hstrip c hc)⟩
  | pureCons t rest hp hcs ih =>
      obtain ⟨ho, ha, hl⟩ := ih
      obtain ⟨_, _, hstrip, hne, hot, hat⟩ := pureOk_parts hp
      have hrne : rest ≠ [] := CS_ne_nil hcs
      have hlastnb : ∀ c, t.getLast? = some c → isBreakC c = false := by
        intro c hc
        by_contra hb
        rw [Bool.not_eq_false] at hb
        have := stripL_self_last hstrip c hc
        rw [breakC_isSpace hb] at this
        exact Bool.noConfusion this
      refine ⟨?_, ?_, ?_⟩
      · unfold onlyNL at ho hot ⊢
        rw [List.all_append, hot, List.all_cons, ho]
        decide
      · rw [SL_append_nl t rest hne hlastnb, List.all_append, hat, ha]
        rfl
      · intro c hc
        rw [List.getLast?_append_of_ne_nil t (by simp)] at hc
        cases rest with
        | nil => exact absurd rfl hrne
        | cons r0 rs =>
            rw [List.getLast?_cons_cons] at hc
            exact hl c hc

theorem CS_post {b : Bool} {y : List Char} (h : CS b y) : postprocessL y = y := by
  obtain ⟨ho, ha, hl⟩ := CS_lines h
  unfold postprocessL
  rw [List.filter_eq_self.mpr (fun m hm => List.all_eq_true.mp ha m hm)]
  refine join_SL y.length y le_rfl ?_ hl
  intro c hc
  have h2 := List.all_eq_true.mp ho c hc
  simpa using h2

theorem CS_clean_fix {b : Bool} {y : List Char} (h : CS b y) : cleanL y = y := by
  obtain ⟨ps, qs, h1, h2, _, _⟩ := CS_tokens h
  unfold cleanL
  rw [if_neg (CS_ne_nil h), gtv_texts h1, h2]
  exact CS_post h

theorem SL_last : ∀ (N : Nat) (l : List Char), l.length ≤ N →
    ∀ c, l.getLast? = some c → isBreakC c = false →
    ∃ ms0 m, splitLinesL l = ms0 ++ [m] ∧ m.getLast? = some c := by
  intro N
  induction N with
  | zero =>
      intro l hl c hc _
      have hnil : l = [] := by
        cases l with
        | nil => rfl
        | cons => simp at hl
      subst hnil
      simp at hc
  | succ N ih =>
      intro l hl c hc hb
      cases l with
      | nil => simp at hc
      | cons c0 l' =>
          cases l' with
          | nil =>
              simp only [List.getLast?_singleton, Option.some.injEq] at hc
              subst hc
              exact ⟨[], [c0], by rw [SL_cons hb]; rfl, rfl⟩
          | cons d l'' =>
              rw [List.getLast?_cons_cons] at hc
              have hlt : (d :: l'').length ≤ N := by simp at hl ⊢; omega
              by_cases hc0 : c0 = '\r'
              · subst hc0
                by_cases hd : d = '\n'
                · subst hd
                  cases l'' with
                  | nil =>
                      simp only [List.getLast?_singleton, Option.some.injEq] at hc
                      subst hc
                      exact absurd hb (by simp [isBreakC])
                  | cons e l3 =>
                      rw [List.getLast?_cons_cons] at hc
                      have hlt2 : (e :: l3).length ≤ N := by simp at hl ⊢; omega
                      obtain ⟨ms0, m, hsl, hm⟩ := ih (e :: l3) hlt2 c hc hb
                      exact ⟨[] :: ms0, m, by rw [SL_r_nl, hsl]; rfl, hm⟩
                · obtain ⟨ms0, m, hsl, hm⟩ := ih (d :: l'') hlt c hc hb
                  exact ⟨[] :: ms0, m, by rw [SL_r_other hd, hsl]; rfl, hm⟩
              · by_cases hbr : isBreakC c0 = true
                · obtain ⟨ms0, m, hsl, hm⟩ := ih (d :: l'') hlt c hc hb
                  exact ⟨[] :: ms0, m, by rw [SL_cons_break hbr hc0, hsl]; rfl, hm⟩
                · rw [Bool.not_eq_true] at hbr
                  obtain ⟨ms0, m, hsl, hm⟩ := ih (d :: l'') hlt c hc hb
                  cases ms0 with
                  | nil =>
                      rw [List.nil_append] at hsl
                      refine ⟨[], c0 :: m, ?_, ?_⟩
                      · rw [SL_cons hbr, hsl]
                        rfl
                      · cases m with
                        | nil => simp at hm
                        | cons x xs => rw [List.getLast?_cons_cons]; exact hm
                  | cons m1 ms0' =>
                      refine ⟨(c0 :: m1) :: ms0', m, ?_, hm⟩
                      rw [SL_cons hbr, hsl]
                      rfl

theorem stripL_ne_nil_last {l : List Char} {c : Char} (hc : l.getLast? = some c)
    (hs : isSpaceC c = false) : stripL l ≠ [] := by
  intro hx
  unfold stripL at hx
  have h1 := congrArg List.reverse hx
  rw [List.reverse_reverse, List.reverse_nil] at h1
  rw [List.dropWhile_eq_nil_iff] at h1
  have hd : l.dropWhile isSpaceC ≠ [] := by
    intro h0
    rw [List.dropWhile_eq_nil_iff] at h0
    have h2 : isSpaceC c = true := h0 c (getLast?_mem hc)
    rw [h2] at hs
    exact Bool.noConfusion hs
  obtain ⟨pre, hpre⟩ := List.dropWhile_suffix (l := l) isSpaceC
  have hlast : (l.dropWhile isSpaceC).getLast? = some c := by
    rw [← hpre] at hc
    rwa [List.getLast?_append_of_ne_nil pre hd] at hc
  have hcmem : c ∈ (l.dropWhile isSpaceC).reverse := by
    rw [List.mem_reverse]
    exact getLast?_mem hlast
  have h3 := h1 c hcmem
  rw [h3] at hs
  exact Bool.noConfusion hs

theorem SL_head_cons {c0 : Char} (hb : isBreakC c0 = false) (t : List Char) :
    ∃ m ms, splitLinesL (c0 :: t) = (c0 :: m) :: ms := by
  rw [SL_cons hb]
  cases hsl : splitLinesL t with
  | nil => exact ⟨[], [], rfl⟩
  | cons m1 ms1 => exact ⟨m1, ms1, rfl⟩

theorem noRefs_join : ∀ L : List (List Char), (∀ m ∈ L, noRefs m = true) →
    noRefs (joinNL L) = true := by
  intro L
  induction L with
  | nil => intro _; rfl
  | cons m L' ih =>
      intro h
      cases L' with
      | nil => exact h m (by simp)
      | cons m2 L'' =>
          rw [join_cons (by simp)]
          exact noRefs_append_nl (h m (by simp))
            (ih (fun x hx => h x (List.mem_cons_of_mem m hx)))

theorem fragElemOk_strip {s : List Char} (h : fragOk s = true) (hs : stripL s ≠ []) :
    fragElemOk (stripL s) = true := by
  simp only [fragOk, Bool.or_eq_true, Bool.and_eq_true, Bool.not_eq_true',
    beq_iff_eq] at h
  rcases h with ⟨⟨h1, _⟩, h3⟩ | h4
  · simp only [fragElemOk, Bool.or_eq_true, Bool.and_eq_true, Bool.not_eq_true',
      beq_iff_eq]
    right
    refine ⟨⟨⟨stripL_idem s, by simpa using hs⟩, ?_⟩, stripL_noRefs h3⟩
    have hni : '<' ∉ stripL s := by
      intro hm
      have h5 : '<' ∈ s := stripL_mem hm
      have h6 : s.contains '<' = true := by simpa using h5
      rw [h6] at h1
      exact Bool.noConfusion h1
    simpa using hni
  · subst h4
    decide

theorem fragElemOk_cases {f : List Char} (h : fragElemOk f = true) :
    f = ['<'] ∨ (stripL f = f ∧ f ≠ [] ∧ f.contains '<' = false ∧ noRefs f = true) := by
  simp only [fragElemOk, Bool.or_eq_true, Bool.and_eq_true, Bool.not_eq_true',
    beq_iff_eq] at h
  rcases h with h | ⟨⟨⟨h1, h2⟩, h3⟩, h4⟩
  · exact Or.inl h
  · exact Or.inr ⟨h1, by simpa using h2, h3, h4⟩

theorem postprocess_filter_ne {r : List Char}
    (h : (splitLinesL r).filter (fun m => stripL m != []) ≠ []) :
    postprocessL r ≠ [] := by
  unfold postprocessL
  cases hL : (splitLinesL r).filter (fun m => stripL m != []) with
  | nil => exact absurd hL h
  | cons m L' =>
      have hmem : m ∈ (splitLinesL r).filter (fun m => stripL m != []) := by
        rw [hL]
        simp
      have hp := (List.mem_filter.mp hmem).2
      have hm : m ≠ [] := by
        intro he
        subst he
        exact absurd hp (by decide)
      exact join_ne_nil hm L'

theorem notBreak_pred {c : Char} (h : isBreakC c = false) :
    (c == '\r' || c == '\x0b' || c == '\x0c') = false := by
  simp only [isBreakC, Bool.or_eq_false_iff] at h ⊢
  exact ⟨⟨h.1.1.2, h.1.2⟩, h.2⟩

theorem pureOk_postprocess {f : List Char} (hstrip : stripL f = f) (hne : f ≠ [])
    (hcont : f.contains '<' = false) (href : noRefs f = true) :
    pureOk (postprocessL f) = true ∧ postprocessL f ≠ [] := by
  have hnmem : '<' ∉ f := by simpa using hcont
  obtain ⟨c0, t, rfl⟩ : ∃ c0 t, f = c0 :: t := by
    cases f with
    | nil => exact absurd rfl hne
    | cons a b => exact ⟨a, b, rfl⟩
  have hc0 : isSpaceC c0 = false := stripL_self_head hstrip c0 rfl
  have hc0b : isBreakC c0 = false := by
    cases hbb : isBreakC c0 with
    | false => rfl
    | true =>
        rw [breakC_isSpace hbb] at hc0
        exact Bool.noConfusion hc0
  obtain ⟨cl, hcl⟩ : ∃ cl, (c0 :: t).getLast? = some cl := by
    cases hgl : (c0 :: t).getLast? with
    | none =>
        rw [List.getLast?_eq_none_iff] at hgl
        exact absurd hgl (by simp)
    | some a => exact ⟨a, rfl⟩
  have hcls : isSpaceC cl = false := stripL_self_last hstrip cl hcl
  have hclb : isBreakC cl = false := by
    cases hbb : isBreakC cl with
    | false => rfl
    | true =>
        rw [breakC_isSpace hbb] at hcls
        exact Bool.noConfusion hcls
  obtain ⟨m, ms, hsl⟩ := SL_head_cons hc0b t
  obtain ⟨ms0, m2, hsl2, hm2last⟩ := SL_last (c0 :: t).length (c0 :: t) le_rfl cl hcl hclb
  have hm2ne : m2 ≠ [] := by
    intro he
    subst he
    simp at hm2last
  have hpm : (fun m => stripL m != []) (c0 :: m) = true := by
    simpa using stripL_ne_nil (c := c0) (l := m) hc0
  have hpm2 : (fun m => stripL m != []) m2 = true := by
    simpa using stripL_ne_nil_last hm2last hcls
  have hfil1 : (splitLinesL (c0 :: t)).filter (fun m => stripL m != []) =
      (c0 :: m) :: ms.filter (fun m => stripL m != []) := by
    rw [hsl]
    exact show List.filter (fun m => stripL m != []) ((c0 :: m) :: ms) =
      (c0 :: m) :: List.filter (fun m => stripL m != []) ms from
      List.filter_cons_of_pos hpm
  have hfil2 : (splitLinesL (c0 :: t)).filter (fun m => stripL m != []) =
      ms0.filter (fun m => stripL m != []) ++ [m2] := by
    rw [hsl2]
    exact filter_getLast (p := fun m => stripL m != []) ms0 m2 hpm2
  have hpost : postprocessL (c0 :: t) =
      joinNL ((splitLinesL (c0 :: t)).filter (fun m => stripL m != [])) := rfl
  have hne0 : postprocessL (c0 :: t) ≠ [] := by
    rw [hpost, hfil1]
    exact join_ne_nil (by simp) _
  have hmemSL : ∀ x ∈ (splitLinesL (c0 :: t)).filter (fun m => stripL m != []),
      x ∈ splitLinesL (c0 :: t) := fun x hx => List.mem_of_mem_filter hx
  have hchar : ∀ c ∈ postprocessL (c0 :: t),
      c = '\n' ∨ ∃ x ∈ splitLinesL (c0 :: t), c ∈ x := by
    intro c hc
    rw [hpost] at hc
    rcases join_mem hc with h1 | ⟨x, hx1, hx2⟩
    · exact Or.inl h1
    · exact Or.inr ⟨x, hmemSL x hx1, hx2⟩
  have hhead : (postprocessL (c0 :: t)).head? = some c0 := by
    rw [hpost, hfil1, join_head? _ _ (by simp)]
    rfl
  have hlastp : (postprocessL (c0 :: t)).getLast? = some cl := by
    rw [hpost, hfil2, join_getLast? _ m2 hm2ne, hm2last]
  have hcontp : (postprocessL (c0 :: t)).contains '<' = false := by
    have hni : '<' ∉ postprocessL (c0 :: t) := by
      intro hm
      rcases hchar '<' hm with h1 | ⟨x, hx1, hx2⟩
      · exact absurd h1 (by decide)
      · exact hnmem (( SL_mem_infix hx1).subset hx2)
    simpa using hni
  have hrefp : noRefs (postprocessL (c0 :: t)) = true := by
    rw [hpost]
    refine noRefs_join _ ?_
    intro x hx
    exact noRefs_infix href ( SL_mem_infix (hmemSL x hx))
  have hstripp : stripL (postprocessL (c0 :: t)) = postprocessL (c0 :: t) := by
    refine stripL_eq_self ?_ ?_
    · intro c hc
      rw [hhead] at hc
      injection hc with hc
      subst hc
      exact hc0
    · intro c hc
      rw [hlastp] at hc
      injection hc with hc
      subst hc
      exact hcls
  have honly : onlyNL (postprocessL (c0 :: t)) = true := by
    unfold onlyNL
    refine List.all_eq_true.mpr ?_
    intro c hc
    rcases hchar c hc with rfl | ⟨x, hx1, hx2⟩
    · decide
    · have hb := SL_mem_noBreak hx1 c hx2
      rw [notBreak_pred hb]
      rfl
  have hall : (splitLinesL (postprocessL (c0 :: t))).all
      (fun m => stripL m != []) = true := by
    rw [hpost]
    have hSL : splitLinesL
        (joinNL (List.filter (fun m => stripL m != []) (splitLinesL (c0 :: t)))) =
        List.filter (fun m => stripL m != []) (splitLinesL (c0 :: t)) := by
      refine SL_of_join _ ?_ ?_
      · intro x hx
        have hp := (List.mem_filter.mp hx).2
        intro he
        subst he
        exact absurd hp (by decide)
      · intro x hx c hc
        exact SL_mem_noBreak (hmemSL x hx) c hc
    rw [hSL]
    refine List.all_eq_true.mpr ?_
    intro x hx
    exact (List.mem_filter.mp hx).2
  refine ⟨?_, hne0⟩
  simp only [pureOk, Bool.and_eq_true, Bool.not_eq_true', beq_iff_eq]
  exact ⟨⟨⟨⟨⟨hcontp, hrefp⟩, hstripp⟩, List.isEmpty_eq_false.mpr hne0⟩, honly⟩, hall⟩

theorem stripSelf_last_nb {l : List Char} (h : stripL l = l) :
    ∀ c, l.getLast? = some c → isBreakC c = false := by
  intro c hc
  cases hbb : isBreakC c with
  | false => rfl
  | true =>
      have hs := stripL_self_last h c hc
      rw [breakC_isSpace hbb] at hs
      exact Bool.noConfusion hs

theorem pureOk_join {t1 t2 : List Char} (h1 : pureOk t1 = true) (h2 : pureOk t2 = true) :
    pureOk (t1 ++ '\n' :: t2) = true := by
  obtain ⟨hc1, hr1, hs1, hn1, ho1, ha1⟩ := pureOk_parts h1
  obtain ⟨hc2, hr2, hs2, hn2, ho2, ha2⟩ := pureOk_parts h2
  have hm1 : '<' ∉ t1 := by simpa using hc1
  have hm2 : '<' ∉ t2 := by simpa using hc2
  have hcont : (t1 ++ '\n' :: t2).contains '<' = false := by
    have hni : '<' ∉ t1 ++ '\n' :: t2 := by
      intro hm
      rcases List.mem_append.mp hm with ha | hb
      · exact hm1 ha
      · rcases List.mem_cons.mp hb with he | hb2
        · exact absurd he (by decide)
        · exact hm2 hb2
    simpa using hni
  have hstripj : stripL (t1 ++ '\n' :: t2) = t1 ++ '\n' :: t2 := by
    refine stripL_eq_self ?_ ?_
    · intro c hc
      cases t1 with
      | nil => exact absurd rfl hn1
      | cons a t1' =>
          rw [List.cons_append, List.head?_cons] at hc
          injection hc with hc
          exact hc ▸ stripL_self_head hs1 a rfl
    · intro c hc
      rw [List.getLast?_append_of_ne_nil t1 (by simp)] at hc
      cases t2 with
      | nil => exact absurd rfl hn2
      | cons b t2' =>
          rw [List.getLast?_cons_cons] at hc
          exact stripL_self_last hs2 c hc
  have honly : onlyNL (t1 ++ '\n' :: t2) = true := by
    unfold onlyNL at ho1 ho2 ⊢
    rw [List.all_append, ho1, List.all_cons, ho2]
    decide
  have hall : (splitLinesL (t1 ++ '\n' :: t2)).all (fun m => stripL m != []) = true := by
    rw [SL_append_nl t1 t2 hn1 (stripSelf_last_nb hs1), List.all_append, ha1, ha2]
    decide
  simp only [pureOk, Bool.and_eq_true, Bool.not_eq_true', beq_iff_eq]
  refine ⟨⟨⟨⟨⟨hcont, noRefs_append_nl hr1 hr2⟩, hstripj⟩, ?_⟩, honly⟩, hall⟩
  refine List.isEmpty_eq_false.mpr ?_
  cases t1 with
  | nil => exact absurd rfl hn1
  | cons a t1' => simp

theorem CS_consPure {t rest : List Char} {b : Bool} (hp : pureOk t = true)
    (h : CS b rest) : CS true (t ++ '\n' :: rest) := by
  cases h with
  | mark1 => exact CS.pureCons t ['<'] hp CS.mark1
  | markCons b2 r hcs => exact CS.pureCons t _ hp (CS.markCons b2 r hcs)
  | pure1 t2 hp2 => exact CS.pure1 _ (pureOk_join hp hp2)
  | pureCons t2 r2 hp2 hcs2 =>
      have he : t ++ '\n' :: (t2 ++ '\n' :: r2) = (t ++ '\n' :: t2) ++ '\n' :: r2 := by
        simp
      rw [he]
      exact CS.pureCons _ _ (pureOk_join hp hp2) hcs2

theorem post_append {f r : List Char} (hne : f ≠ [])
    (hlast : ∀ c, f.getLast? = some c → isBreakC c = false) :
    postprocessL (f ++ '\n' :: r) =
      joinNL ((splitLinesL f).filter (fun m => stripL m != []) ++
              (splitLinesL r).filter (fun m => stripL m != [])) := by
  unfold postprocessL
  rw [SL_append_nl f r hne hlast, List.filter_append]

theorem filter_head_ne {p : List Char → Bool} {L : List (List Char)}
    {x : List Char} {xs : List (List Char)} (h : L.filter p = x :: xs)
    (hp : p [] = false) : x ≠ [] := by
  intro he
  subst he
  have hmem : ([] : List Char) ∈ L.filter p := by
    rw [h]
    simp
  have := (List.mem_filter.mp hmem).2
  rw [hp] at this
  exact Bool.noConfusion this

theorem postJoin_CS : ∀ F : List (List Char), (∀ f ∈ F, fragElemOk f = true) →
    postprocessL (joinNL F) = [] ∨ ∃ b, CS b (postprocessL (joinNL F)) := by
  intro F
  induction F with
  | nil => intro _; left; rfl
  | cons f F' ih =>
      intro hfe
      have hf := hfe f (by simp)
      rcases fragElemOk_cases hf with rfl | ⟨hstrip, hne, hcont, href⟩
      · cases F' with
        | nil =>
            right
            have h1 : postprocessL (joinNL [['<']]) = ['<'] := by decide
            exact ⟨false, h1 ▸ CS.mark1⟩
        | cons f2 F'' =>
            rw [join_cons (by simp) ['<'],
              post_append (by simp) (by
                intro c hc
                simp only [List.getLast?_singleton, Option.some.injEq] at hc
                subst hc
                decide)]
            have hLf : (splitLinesL ['<']).filter (fun m => stripL m != []) = [['<']] := by
              decide
            rw [hLf]
            cases hLr : (splitLinesL (joinNL (f2 :: F''))).filter
                (fun m => stripL m != []) with
            | nil =>
                rw [List.append_nil]
                right
                exact ⟨false, CS.mark1⟩
            | cons x xs =>
                rw [join_append [['<']] (x :: xs) (by simp) (by simp)]
                have hpr : postprocessL (joinNL (f2 :: F'')) = joinNL (x :: xs) := by
                  unfold postprocessL
                  rw [hLr]
                have hx : x ≠ [] := filter_head_ne hLr (by decide)
                rcases ih (fun g hg => hfe g (List.mem_cons_of_mem ['<'] hg)) with
                  h0 | ⟨b, hb⟩
                · rw [hpr] at h0
                  exact absurd h0 (join_ne_nil hx xs)
                · right
                  rw [hpr] at hb
                  exact ⟨false, CS.markCons b _ hb⟩
      · obtain ⟨hpo, hpne⟩ := pureOk_postprocess hstrip hne hcont href
        cases F' with
        | nil =>
            right
            exact ⟨true, CS.pure1 _ hpo⟩
        | cons f2 F'' =>
            rw [join_cons (by simp) f, post_append hne (stripSelf_last_nb hstrip)]
            cases hLr : (splitLinesL (joinNL (f2 :: F''))).filter
                (fun m => stripL m != []) with
            | nil =>
                rw [List.append_nil]
                right
                exact ⟨true, CS.pure1 _ hpo⟩
            | cons x xs =>
                have hLfne : (splitLinesL f).filter (fun m => stripL m != []) ≠ [] := by
                  intro h0
                  apply hpne
                  unfold postprocessL
                  rw [h0]
                  rfl
                rw [join_append _ (x :: xs) hLfne (by simp)]
                have hpr : postprocessL (joinNL (f2 :: F'')) = joinNL (x :: xs) := by
                  unfold postprocessL
                  rw [hLr]
                have hx : x ≠ [] := filter_head_ne hLr (by decide)
                rcases ih (fun g hg => hfe g (List.mem_cons_of_mem f hg)) with h0 | ⟨b, hb⟩
                · rw [hpr] at h0
                  exact absurd h0 (join_ne_nil hx xs)
                · right
                  rw [hpr] at hb
                  exact ⟨true, CS_consPure hpo hb⟩

theorem clean_CS {x : List Char} (href : noRefs x = true) :
    cleanL x = [] ∨ ∃ b, CS b (cleanL x) := by
  by_cases hx : x = []
  · left
    rw [hx]
    rfl
  · unfold cleanL
    rw [if_neg hx, getTextL_eq_gtL]
    unfold gtL
    apply postJoin_CS
    intro f hf
    rw [List.mem_filter] at hf
    obtain ⟨hf1, hf2⟩ := hf
    rw [List.mem_map] at hf1
    obtain ⟨s, hs1, hs2⟩ := hf1
    have hok := clean_frags_fragOk href s hs1
    subst hs2
    exact fragElemOk_strip hok (by simpa using hf2)

theorem cleanL_idem {x : List Char} (href : noRefs x = true) :
    cleanL (cleanL x) = cleanL x := by
  rcases clean_CS href with h | ⟨b, hb⟩
  · rw [h]
    rfl
  · exact CS_clean_fix hb

/-! ## Claim theorems: the Text Cleaner -/

/-- C6.  Removing the denylisted elements removes their entire subtrees from
the fragment stream: the fragments surviving the removal are exactly the
text nodes lying outside every denylisted subtree, the cleaned output is
computed from those fragments alone, and the concrete scenario holds. -/
theorem clean_body_content_denylist :
    (∀ ns : NodeList, fragsNL (removeDenyList ns) = allowedFragsNL ns)
    ∧ (∀ html : String,
        clean_body_content html =
          String.mk (postprocessL (joinNL
            (((allowedFragsNL (parseNodes html.data)).map stripL).filter (fun m => m != [])))))
    ∧ clean_body_content "<body><nav>Menu</nav><p>Hello <b>World</b></p></body>"
        = "Hello\nWorld" := by
  refine ⟨frags_removeDeny, ?_, by decide⟩
  intro html
  by_cases hh : html = ""
  · subst hh
    decide
  · have hd : html.data ≠ [] := by
      intro h
      exact hh (String.ext h)
    unfold clean_body_content cleanL getTextL
    rw [if_neg hd, frags_removeDeny]

/-- C7 counterexample.  On `"<body><p>Hello</p></body>"` the code returns the
serialized body *element* (outer markup, `<body>` tags included), not the
body's inner markup as the claim states. -/
theorem extract_body_content_inner_counterexample :
    extract_body_content "<body><p>Hello</p></body>" = "<body><p>Hello</p></body>"
    ∧ extractBodySpec "<body><p>Hello</p></body>" = "<p>Hello</p>"
    ∧ extract_body_content "<body><p>Hello</p></body>"
        ≠ extractBodySpec "<body><p>Hello</p></body>" := by
  refine ⟨by decide, by decide, by decide⟩

/-- C7 (amended).  `extract_body_content` returns the serialized body
element itself — the `<body ...>` start tag, the serialization of the body's
children (the inner markup), and the `</body>` end tag — when a body element
with at least one child exists; it returns the empty string when the input
is empty, no body element exists, or the body element has no children (a
childless BeautifulSoup tag is falsy).  It is a pure function of its
input. -/
theorem extract_body_content_outer (html : String) :
    (∀ nm a cs, findBody (parseNodes html.data) = some (nm, a, cs) → cs ≠ .nil →
      extract_body_content html =
        String.mk (('<' :: (nm ++ a ++ ['>'])) ++ serializeNL cs
          ++ ('<' :: '/' :: (nm ++ ['>'])))
      ∧ extractBodySpec html = String.mk (serializeNL cs))
    ∧ (findBody (parseNodes html.data) = none → extract_body_content html = "")
    ∧ (∀ nm a, findBody (parseNodes html.data) = some (nm, a, .nil) →
        extract_body_content html = "") := by
  refine ⟨?_, ?_, ?_⟩
  · intro nm a cs hf hcs
    by_cases hh : html = ""
    · rw [hh] at hf
      have hnone : findBody (parseNodes ("" : String).data) = none := rfl
      rw [hnone] at hf
      exact Option.noConfusion hf
    · have hb := findBody_name hf
      subst hb
      constructor
      · unfold extract_body_content
        rw [if_neg hh, hf]
        cases cs with
        | nil => exact absurd rfl hcs
        | cons n ns =>
            show String.mk (serializeN (Node.elem ("body".data) a (NodeList.cons n ns))) = _
            simp only [serializeN]
            rw [if_neg (by decide : ¬(voidTags.contains ("body".data) = true))]
      · unfold extractBodySpec
        rw [if_neg hh, hf]
  · intro hf
    by_cases hh : html = ""
    · rw [hh]
      rfl
    · unfold extract_body_content
      rw [if_neg hh, hf]
  · intro nm a hf
    by_cases hh : html = ""
    · rw [hh]
      rfl
    · unfold extract_body_content
      rw [if_neg hh, hf]

/-- C7 witness: the amended statement applied at the concrete scenario
input. -/
theorem extract_body_content_outer_witness :
    findBody (parseNodes ("<body><p>Hello</p></body>".data)) =
      some ("body".data, [],
        NodeList.cons (Node.elem ("p".data) [] (NodeList.cons (Node.txt ("Hello".data))
          NodeList.nil)) NodeList.nil)
    ∧ extract_body_content "<body><p>Hello</p></body>" =
        String.mk (('<' :: ("body".data ++ [] ++ ['>']))
          ++ serializeNL (NodeList.cons (Node.elem ("p".data) []
              (NodeList.cons (Node.txt ("Hello".data)) NodeList.nil)) NodeList.nil)
          ++ ('<' :: '/' :: ("body".data ++ ['>']))) :=
  ⟨rfl,
    ((extract_body_content_outer "<body><p>Hello</p></body>").1 ("body".data) []
      (NodeList.cons (Node.elem ("p".data) [] (NodeList.cons (Node.txt ("Hello".data))
        NodeList.nil)) NodeList.nil) rfl
      (fun h => NodeList.noConfusion h)).1⟩

/-- C9 witness: a five-entry history keeps its last four entries with
position-parity labels, and the empty history produces no context section. -/
theorem buildPrompt_history_window_witness :
    (["a", "b", "c", "d", "e"] : List String) ≠ [] ∧
    contextStr ["a", "b", "c", "d", "e"] =
      "\nPrevious Conversation Context:\n"
        ++ "\n".intercalate (contextLines ["a", "b", "c", "d", "e"]) ∧
    contextStr ([] : List String) = "" ∧
    (["a", "b"] : List String).length ≤ 4 ∧
    lastWindow ["a", "b"] = ["a", "b"] :=
  ⟨by decide,
    (buildPrompt_history_window "c" "q" ["a", "b", "c", "d", "e"]).2.2.1 (by decide),
    (buildPrompt_history_window "c" "q" ([] : List String)).2.1 rfl,
    by decide,
    (buildPrompt_history_window "c" "q" ["a", "b"]).2.2.2.2.1 (by decide)⟩

/-- C8.  Cleaning is idempotent on already-cleaned text: on every input whose
parsed forest holds no denylisted element and whose characters contain none of
the modelled character references, applying `clean_body_content` twice gives
the same string as applying it once. -/
theorem clean_idempotent_noRefs (x : String)
    (hdeny : noDenyNL (parseNodes x.data) = true)
    (href : noRefs x.data = true) :
    clean_body_content (clean_body_content x) = clean_body_content x := by
  unfold clean_body_content
  exact congrArg String.mk (cleanL_idem href)

/-- C8 witness: idempotence at the concrete denylist-free, reference-free
input `"<p>Hello <b>World</b></p>"`. -/
theorem clean_idempotent_noRefs_witness :
    noDenyNL (parseNodes ("<p>Hello <b>World</b></p>".data)) = true ∧
    noRefs ("<p>Hello <b>World</b></p>".data) = true ∧
    clean_body_content (clean_body_content "<p>Hello <b>World</b></p>") =
      clean_body_content "<p>Hello <b>World</b></p>" :=
  ⟨by decide, by decide,
    clean_idempotent_noRefs "<p>Hello <b>World</b></p>" (by decide) (by decide)⟩

/-- C8 counterexample.  The input `"a&lt;b"` holds no denylisted tag, yet
cleaning is not idempotent on it: the first pass decodes `&lt;` to `<`, and
the second pass re-parses that `<` as markup, splitting the text into
separate fragments joined by newlines. -/
theorem clean_idempotent_counterexample :
    noDenyNL (parseNodes ("a&lt;b".data)) = true ∧
    clean_body_content (clean_body_content "a&lt;b") ≠ clean_body_content "a&lt;b" := by
  constructor
  · decide
  · decide

end AWS
